import Mathlib

/-!
Verification of the dependency-ordered team builder and the session store
of the `ai-cognitive-nexus-mcp` repository (src/app_context.py and
src/session_manager.py), as a shallow embedding in Lean.

Conventions of the embedding:
* Python dicts are association lists `List (String × α)`; Python dicts keep
  insertion order, and lookups (`d[k]`, `k in d`, `d.get k`) become
  `List.lookup`.  Theorems about real configurations carry a
  no-duplicate-keys hypothesis, which every Python dict satisfies.
* The session directory is an association list from file name to file
  content; an unparsable or unreadable JSON file is `FileContent.corrupt`.
* Wall-clock instants are integers (seconds).  `datetime.fromisoformat`
  applied to a stored `created_at` string either succeeds
  (`CreatedAt.parseable t`) or raises `ValueError` (`CreatedAt.unparsable`);
  `datetime.now(timezone.utc).isoformat()` always stores a parseable value.
* Exceptions become `Except`/`Option`: a caught exception is a matched
  branch, a propagated one an `.error` result.
-/

/-! ## Session store (src/session_manager.py) -/

/-- Result of `datetime.fromisoformat` on a stored `created_at` field. -/
inductive CreatedAt where
  | parseable (t : Int)
  | unparsable (raw : String)
deriving DecidableEq, Repr

/-- One `{role, content}` turn of a session history. -/
structure HistoryEntry where
  role : String
  content : String
deriving DecidableEq, Repr

/-- A parsed session JSON document (the `artifacts` mapping is opaque to all
code under verification and is omitted). -/
structure SessionDoc where
  session_id : String
  status : String
  created_at : Option CreatedAt
  initial_context : Option String
  history : List HistoryEntry
deriving DecidableEq, Repr

/-- Content of one file of the session directory. `corrupt` stands for a
file whose `json.load` raises `JSONDecodeError` (or whose read raises
`IOError`). -/
inductive FileContent where
  | corrupt
  | doc (d : SessionDoc)
deriving DecidableEq, Repr

/-- The session directory: file name to file content. -/
abbrev Store := List (String × FileContent)

/-- The character test of `SessionManager._get_path`:
`all(c.isalnum() or c in '-_' for c in session_id)` (ASCII model of
`str.isalnum`). Vacuously true on the empty identifier. -/
def validId (session_id : String) : Bool :=
  session_id.toList.all (fun c => c.isAlphanum || c == '-' || c == '_')

/-- `SessionManager._get_path`: raises `ValueError` (modelled as `.error`)
on an invalid identifier, otherwise returns the file name
`session-<id>.json`. -/
def get_path (session_id : String) : Except String String :=
  if validId session_id then .ok ("session-" ++ session_id ++ ".json")
  else .error session_id

/-- Writing a file: overwrite the entry with this name, or create it. -/
def storeWrite : Store → String → FileContent → Store
  | [], n, c => [(n, c)]
  | (m, d) :: rest, n, c =>
    if m = n then (n, c) :: rest else (m, d) :: storeWrite rest n c

/-- `SessionManager.save_session`: validates the identifier through
`_get_path` (the `ValueError` is re-raised by the `except` clause), then
writes the document. -/
def save_session (store : Store) (session_id : String) (data : SessionDoc) :
    Except String Store :=
  match get_path session_id with
  | .error e => .error e
  | .ok path => .ok (storeWrite store path (.doc data))

/-- `SessionManager.load_session`: the `ValueError` raised by `_get_path`
on an invalid identifier is caught by the
`except (json.JSONDecodeError, IOError, ValueError)` clause and turned into
`None`, exactly like a missing or unparsable file. -/
def load_session (store : Store) (session_id : String) : Option SessionDoc :=
  match get_path session_id with
  | .error _ => none
  | .ok path =>
    match store.lookup path with
    | none => none
    | some .corrupt => none
    | some (.doc d) => some d

/-- The glob pattern `session-*.json` of `_cleanup_old_sessions`. -/
def isSessionFile (name : String) : Bool :=
  name.startsWith "session-" && name.endsWith ".json"

/-- Deletion test of one file during `_cleanup_old_sessions`: corrupt files
and documents without a parseable `created_at` are unlinked in the `except`
branches; a parseable document is unlinked when
`now - created_at > timedelta(hours=24)`. -/
def shouldDelete (now : Int) : FileContent → Bool
  | .corrupt => true
  | .doc d =>
    match d.created_at with
    | none => true
    | some (.unparsable _) => true
    | some (.parseable t) => decide (86400 < now - t)

/-- `SessionManager._cleanup_old_sessions`: every file matching
`session-*.json` that is expired or invalid is unlinked; all other files
are untouched. -/
def cleanup_old_sessions (now : Int) (store : Store) : Store :=
  store.filter (fun e => !(isSessionFile e.1 && shouldDelete now e.2))

/-- Python truthiness of the `Optional[str]` argument in
`if initial_context:`. -/
def ctxTruthy : Option String → Bool
  | none => false
  | some s => !s.isEmpty

/-- `SessionManager.create_session`: sweep, build the fresh document
(`status = "active"`, current-UTC `created_at`, history seeded from the
initial context only when it is truthy), persist it through
`save_session`, and return it.  The fresh `uuid.uuid4()` string is the
`new_id` argument. -/
def create_session (store : Store) (now : Int) (new_id : String)
    (initial_context : Option String) : Except String (Store × SessionDoc) :=
  let store1 := cleanup_old_sessions now store
  let history : List HistoryEntry :=
    if ctxTruthy initial_context then
      [⟨"system", "Session initiated with context: " ++ initial_context.getD ""⟩]
    else []
  let data : SessionDoc :=
    ⟨new_id, "active", some (.parseable now), initial_context, history⟩
  match save_session store1 new_id data with
  | .error e => .error e
  | .ok store2 => .ok (store2, data)

/-! ## Team configuration and dependency resolver (src/app_context.py) -/

/-- Team keys and member keys are strings. -/
abbrev Key := String

/-- One entry of `teams.json` as read by `_create_team_instance` and
`_topological_sort`.  Every field is read with `.get` (a missing field
defaults), so all fields carry defaults. -/
structure TeamConfig where
  team_name : Option String := none
  description : Option String := none
  members : List Key := []
  instructions : Option String := none
  success_criteria : Option String := none
deriving DecidableEq, Repr

instance : Inhabited TeamConfig := ⟨{}⟩

/-- One entry of `agents.json` as read by `_create_team_instance`:
`role` and `description` are accessed with `[...]` (mandatory), the rest
with `.get`. -/
structure AgentConfig where
  name : Option String := none
  role : String
  description : String
  tools : List String := []
  instructions : Option String := none
deriving DecidableEq, Repr

/-- The keys of `self.teams_config` in insertion order. -/
def teamKeys (cfgs : List (Key × TeamConfig)) : List Key :=
  cfgs.map Prod.fst

/-- A Python dict has no duplicate keys. -/
def keysNodup (cfgs : List (Key × TeamConfig)) : Prop :=
  (teamKeys cfgs).Nodup

/-- `member_key in self.teams_config`. -/
def isTeamKey (cfgs : List (Key × TeamConfig)) (k : Key) : Bool :=
  (cfgs.lookup k).isSome

/-- `{member for member in config.get("members", []) if member in team_configs}`:
the distinct members of a definition that are themselves team keys.  The
Python value is a set; only its cardinality and membership are ever used,
plus one `adj` append per element, so the concrete order chosen here is
immaterial. -/
def teamDeps (cfgs : List (Key × TeamConfig)) (members : List Key) : List Key :=
  (members.filter (isTeamKey cfgs)).dedup

/-- The team-type dependencies of key `k` (of its configuration). -/
def tdeps (cfgs : List (Key × TeamConfig)) (k : Key) : List Key :=
  teamDeps cfgs ((cfgs.lookup k).getD default).members

/-- The `in_degree` dict right after the first loop of `_topological_sort`:
each key maps to the number of its distinct team-type members. -/
def initIndeg (cfgs : List (Key × TeamConfig)) : List (Key × Int) :=
  cfgs.map (fun p => (p.1, ((teamDeps cfgs p.2.members).length : Int)))

/-- `adj[dep_key].append(team_key)`: append `t` to the bucket of `d`. -/
def adjAppend : List (Key × List Key) → Key → Key → List (Key × List Key)
  | [], _, _ => []
  | (m, b) :: rest, d, t =>
    if m = d then (m, b ++ [t]) :: adjAppend rest d t
    else (m, b) :: adjAppend rest d t

/-- The `adj` dict of `_topological_sort`: start from empty buckets and,
for each team in insertion order, append it to the bucket of each of its
team-type dependencies. -/
def buildAdj (cfgs : List (Key × TeamConfig)) : List (Key × List Key) :=
  cfgs.foldl
    (fun ad p => (teamDeps cfgs p.2.members).foldl (fun ad' d => adjAppend ad' d p.1) ad)
    (cfgs.map (fun p => (p.1, ([] : List Key))))

/-- `adj[current_team_key]` (the key is always present in the dict). -/
def adjList (cfgs : List (Key × TeamConfig)) (k : Key) : List Key :=
  ((buildAdj cfgs).lookup k).getD []

/-- `in_degree[dependent_team_key] -= 1`. -/
def decKey : List (Key × Int) → Key → List (Key × Int)
  | [], _ => []
  | (m, v) :: rest, k =>
    if m = k then (m, v - 1) :: decKey rest k
    else (m, v) :: decKey rest k

/-- The inner loop of `_topological_sort`'s while: decrement every
dependent of the popped key in turn, appending a dependent to the queue
the moment its in-degree reaches zero. -/
def processDeps (indeg : List (Key × Int)) (queue : List Key) :
    List Key → List (Key × Int) × List Key
  | [] => (indeg, queue)
  | d :: rest =>
    let indeg' := decKey indeg d
    let queue' := if indeg'.lookup d = some 0 then queue ++ [d] else queue
    processDeps indeg' queue' rest

/-- Sum of the positive parts of the in-degree values: the fuel budget of
the while loop (each iteration pops one element and only enqueues by
driving a positive in-degree to zero). -/
def sumPos (indeg : List (Key × Int)) : Nat :=
  (indeg.map (fun p => p.2.toNat)).sum

/-- The while loop of `_topological_sort`, with an explicit fuel that the
caller sets to `queue.length + sumPos indeg`, which dominates the number
of iterations (see `processDeps_measure`).  Returns the `sorted_list` and
the final `in_degree` dict. -/
def kahnFuel (adj : Key → List Key) :
    Nat → List Key → List (Key × Int) → List Key → List Key × List (Key × Int)
  | 0, _, indeg, out => (out, indeg)
  | _ + 1, [], indeg, out => (out, indeg)
  | fuel + 1, c :: rest, indeg, out =>
    let p := processDeps indeg rest (adj c)
    kahnFuel adj fuel p.2 p.1 (out ++ [c])

/-- The initial queue: the zero-in-degree keys, in dict insertion order. -/
def initQueue (cfgs : List (Key × TeamConfig)) : List Key :=
  ((initIndeg cfgs).filter (fun p => p.2 == 0)).map Prod.fst

/-- The whole while loop of `_topological_sort` run to completion. -/
def kahnRun (cfgs : List (Key × TeamConfig)) : List Key × List (Key × Int) :=
  kahnFuel (adjList cfgs) ((initQueue cfgs).length + sumPos (initIndeg cfgs))
    (initQueue cfgs) (initIndeg cfgs) []

/-- The `sorted_list` produced by the loop. -/
def topoOut (cfgs : List (Key × TeamConfig)) : List Key :=
  (kahnRun cfgs).1

/-- `ApplicationContext._topological_sort`:  returns the sorted key list
when it is complete, otherwise raises `ValueError` (modelled as `.error`)
carrying the keys whose final in-degree stayed positive. -/
def topological_sort (cfgs : List (Key × TeamConfig)) : Except (List Key) (List Key) :=
  let r := kahnRun cfgs
  if r.1.length = cfgs.length then .ok r.1
  else .error ((r.2.filter (fun p => 0 < p.2)).map Prod.fst)

/-- `t depends on d`: the configuration of team `t` lists `d` among its
team-type members.  Boolean so that concrete instances evaluate. -/
def dependsOnB (cfgs : List (Key × TeamConfig)) (t d : Key) : Bool :=
  match cfgs.lookup t with
  | some cfg => (teamDeps cfgs cfg.members).contains d
  | none => false

/-- Propositional form of `dependsOnB`. -/
def DependsOn (cfgs : List (Key × TeamConfig)) (t d : Key) : Prop :=
  dependsOnB cfgs t d = true

/-! ## Team graph builder (src/app_context.py) -/

/-- A built runtime participant: either an `agno` `Agent` or a `Team`,
modelled by the constructor arguments the builder passes to the external
factory (model handles and boolean display flags are opaque and omitted). -/
inductive Participant where
  | agent (name : String) (role : String) (description : String)
      (tools : List String) (instructions : Option String)
  | team (team_name : Option String) (members : List Participant)
      (description : Option String) (instructions : Option String)
      (success_criteria : Option String)

/-- The `self.factory` dict: the tool names present in its `tool_map`
(the model objects are opaque). -/
structure Factory where
  toolNames : List String

/-- The `Agent(...)` construction for an agent-type member:
name defaults to the member key, unknown tool identifiers are silently
dropped by the `if t in self.factory["tool_map"]` filter. -/
def mkAgentMember (fac : Factory) (member_key : Key) (ac : AgentConfig) : Participant :=
  .agent (ac.name.getD member_key) ac.role ac.description
    (ac.tools.filter (fun t => fac.toolNames.contains t)) ac.instructions

/-- The member loop of `_create_team_instance`: a team-key member must be
present in the (partially built) registry, else the whole team fails
(`return None`); an agent-key member is materialized; a member that is
neither is logged and skipped. -/
def resolve_members (fac : Factory) (agents : List (Key × AgentConfig))
    (teams_config : List (Key × TeamConfig)) (teams : List (Key × Participant)) :
    List Key → Option (List Participant)
  | [] => some []
  | m :: rest =>
    if isTeamKey teams_config m then
      match teams.lookup m with
      | some t => (resolve_members fac agents teams_config teams rest).map (t :: ·)
      | none => none
    else
      match agents.lookup m with
      | some ac =>
        (resolve_members fac agents teams_config teams rest).map
          (mkAgentMember fac m ac :: ·)
      | none => resolve_members fac agents teams_config teams rest

/-- `ApplicationContext._create_team_instance` (the factory was already
checked by the caller): resolve the members; a team whose declared member
list is nonempty but whose resolved list is empty fails; otherwise the
`Team(...)` participant is built. -/
def create_team_instance (fac : Factory) (agents : List (Key × AgentConfig))
    (teams_config : List (Key × TeamConfig)) (teams : List (Key × Participant))
    (team_key : Key) : Option Participant :=
  let team_config := (teams_config.lookup team_key).getD default
  match resolve_members fac agents teams_config teams team_config.members with
  | none => none
  | some members =>
    if members.isEmpty && !team_config.members.isEmpty then none
    else
      some (.team team_config.team_name members team_config.description
        team_config.instructions team_config.success_criteria)

/-- The build loop of `reinitialize_teams`: process the sorted keys in
order, inserting each successfully built team into the registry and
skipping failures. -/
def build_teams (fac : Factory) (agents : List (Key × AgentConfig))
    (teams_config : List (Key × TeamConfig)) :
    List Key → List (Key × Participant) → List (Key × Participant)
  | [], ts => ts
  | k :: rest, ts =>
    match create_team_instance fac agents teams_config ts k with
    | some t => build_teams fac agents teams_config rest (ts ++ [(k, t)])
    | none => build_teams fac agents teams_config rest ts

/-- The application state touched by `reinitialize_teams`. -/
structure AppState where
  factory : Option Factory
  agents : List (Key × AgentConfig)
  teams_config : List (Key × TeamConfig)
  teams : List (Key × Participant)

/-- `ApplicationContext.reinitialize_teams`: without a factory, report
failure and touch nothing.  Otherwise `self.teams = {}` discards the old
registry at once; an empty configuration succeeds trivially; a cycle
reported by `_topological_sort` returns `False` with the registry left
cleared; otherwise the build loop fills the registry and `True` is
returned. -/
def reinitialize_teams (s : AppState) : AppState × Bool :=
  match s.factory with
  | none => (s, false)
  | some fac =>
    let s1 := { s with teams := [] }
    if s1.teams_config.isEmpty then (s1, true)
    else
      match topological_sort s1.teams_config with
      | .error _ => (s1, false)
      | .ok sorted =>
        ({ s1 with teams := build_teams fac s1.agents s1.teams_config sorted [] }, true)

/-- The build order described by the specification's words for the
resolver: repeatedly pop, among the not-yet-processed keys whose
team-type dependencies are all processed (the zero-in-degree candidates),
the first one in insertion order of the definition mapping.  Written only
to be compared with the order the code actually produces. -/
def specPopOrderAux (cfgs : List (Key × TeamConfig)) :
    Nat → List Key → List Key
  | 0, _ => []
  | n + 1, done =>
    match cfgs.find? (fun p =>
        !done.contains p.1 &&
        (teamDeps cfgs p.2.members).all (fun d => done.contains d)) with
    | none => []
    | some p => p.1 :: specPopOrderAux cfgs n (done ++ [p.1])

/-- The spec-described pop order, run for as many rounds as there are
definitions. -/
def specPopOrder (cfgs : List (Key × TeamConfig)) : List Key :=
  specPopOrderAux cfgs cfgs.length []

/-! ## Session-store lemmas and claim theorems -/

theorem lookup_storeWrite_self (s : Store) (n : String) (c : FileContent) :
    (storeWrite s n c).lookup n = some c := by
  induction s with
  | nil => simp [storeWrite, List.lookup]
  | cons e rest ih =>
    obtain ⟨m, d⟩ := e
    by_cases h : m = n
    · simp [storeWrite, h, List.lookup]
    · have hb : (n == m) = false := by simp [Ne.symm h]
      simp [storeWrite, h, List.lookup, ih, hb]

/-- C3 (counterexample): for the identifier `"bad/id"` (which contains a
character outside the allowed set) `_get_path` does raise `ValueError`,
but `load_session` catches it and returns `None` — exactly the same
NotFound result it returns for the absent well-formed identifier
`"missing-id"` — instead of failing with a distinct invalid-identifier
error as the claim states. -/
theorem load_invalid_id_counterexample :
    get_path "bad/id" = .error "bad/id" ∧
    load_session [] "bad/id" = none ∧
    load_session [] "missing-id" = none :=
  ⟨rfl, rfl, rfl⟩

/-- C3 (amended): for every session identifier failing the restricted
character-set check, `_get_path` raises `ValueError`, but `load_session`
catches it (its `except` clause lists `ValueError`) and returns the
NotFound result `None`, indistinguishable from an absent or unparsable
session document. -/
theorem load_invalid_id_returns_notfound (store : Store) (sid : String)
    (h : validId sid = false) :
    get_path sid = .error sid ∧ load_session store sid = none := by
  refine ⟨?_, ?_⟩ <;> simp [get_path, load_session, h]

theorem load_invalid_id_returns_notfound_witness :
    validId "bad/id" = false ∧
      (get_path "bad/id" = .error "bad/id" ∧ load_session [] "bad/id" = none) :=
  ⟨by decide, load_invalid_id_returns_notfound [] "bad/id" (by decide)⟩

/-- C8 (counterexample): `create_session` called with the *given* initial
context `""` produces a document whose history is empty, not the single
system-role entry the claim promises for every given initial context
(`if initial_context:` is false on the empty string). -/
theorem create_empty_context_empty_history :
    (create_session [] 0 "abc" (some "")).toOption.map (fun p => p.2.history) =
      some [] := rfl

/-- C8 (amended): for every initial context, `create_session` followed
immediately by `load_session` with the returned identifier returns a
document equal to the one `create_session` returned: status `active`, a
parseable UTC creation timestamp, an empty history when no initial
context — or the empty-string context — was given, and exactly one
system-role history entry when a nonempty context was given. -/
theorem create_then_load_roundtrip (store : Store) (now : Int) (new_id : String)
    (ctx : Option String) (hid : validId new_id = true) :
    ∃ store2 data,
      create_session store now new_id ctx = .ok (store2, data) ∧
      load_session store2 new_id = some data ∧
      data.status = "active" ∧
      data.created_at = some (.parseable now) ∧
      ((ctx = none ∨ ctx = some "") → data.history = []) ∧
      (∀ c, ctx = some c → c ≠ "" →
        data.history = [⟨"system", "Session initiated with context: " ++ c⟩]) := by
  refine ⟨storeWrite (cleanup_old_sessions now store)
      ("session-" ++ new_id ++ ".json")
      (.doc ⟨new_id, "active", some (.parseable now), ctx,
        if ctxTruthy ctx then
          [⟨"system", "Session initiated with context: " ++ ctx.getD ""⟩]
        else []⟩),
    ⟨new_id, "active", some (.parseable now), ctx,
      if ctxTruthy ctx then
        [⟨"system", "Session initiated with context: " ++ ctx.getD ""⟩]
      else []⟩, ?_, ?_, rfl, rfl, ?_, ?_⟩
  · simp [create_session, save_session, get_path, hid]
  · simp [load_session, get_path, hid, lookup_storeWrite_self]
  · rintro (rfl | rfl) <;> simp [ctxTruthy, String.isEmpty_iff]
  · rintro c rfl hc
    simp [ctxTruthy, String.isEmpty_iff, hc]

theorem create_then_load_roundtrip_witness :
    validId "abc" = true ∧
      (∃ store2 data,
        create_session [] 0 "abc" (some "hello") = .ok (store2, data) ∧
        load_session store2 "abc" = some data ∧
        data.status = "active" ∧
        data.created_at = some (.parseable 0) ∧
        ((some "hello" = none ∨ some "hello" = some "") → data.history = []) ∧
        (∀ c, some "hello" = some c → c ≠ "" →
          data.history = [⟨"system", "Session initiated with context: " ++ c⟩])) :=
  ⟨by decide, create_then_load_roundtrip [] 0 "abc" (some "hello") (by decide)⟩

/-- C9 (confirmed): a sweep deletes exactly the stored session files whose
creation timestamp is more than 24 hours (86400 s) before the sweep time
or that are structurally invalid (unparsable file, missing or unparsable
`created_at`); every other entry — in particular every valid session
document created less than 24 hours before the sweep — survives
unchanged. -/
theorem cleanup_deletes_exactly_expired_or_invalid (now : Int) (store : Store)
    (name : String) (c : FileContent) :
    (name, c) ∈ cleanup_old_sessions now store ↔
      (name, c) ∈ store ∧
        (isSessionFile name = true →
          ∃ d t, c = FileContent.doc d ∧
            d.created_at = some (CreatedAt.parseable t) ∧ now - t ≤ 86400) := by
  rw [cleanup_old_sessions, List.mem_filter]
  refine and_congr_right fun _ => ?_
  constructor
  · intro h hs
    cases c with
    | corrupt => simp [shouldDelete, hs] at h
    | doc d =>
      cases hca : d.created_at with
      | none => simp [shouldDelete, hs, hca] at h
      | some ca =>
        cases ca with
        | unparsable raw => simp [shouldDelete, hs, hca] at h
        | parseable t =>
          refine ⟨d, t, rfl, hca, ?_⟩
          simp [shouldDelete, hs, hca] at h
          omega
  · intro h
    by_cases hs : isSessionFile name = true
    · obtain ⟨d, t, rfl, hca, ht⟩ := h hs
      simp [shouldDelete, hs, hca]
      omega
    · simp [Bool.not_eq_true] at hs
      simp [hs]

/-- C10 (confirmed): the identifier validation of `_get_path` accepts the
empty string vacuously (an `all` over zero characters), so no
invalid-identifier error is raised: `load_session` with `""` returns the
NotFound result `None` (when the file is absent), and `save_session` with
`""` persists the document under the fixed file name `session-.json`. -/
theorem empty_session_id_vacuously_valid :
    validId "" = true ∧ load_session [] "" = none ∧
    ∀ store d, save_session store "" d =
      .ok (storeWrite store "session-.json" (.doc d)) :=
  ⟨rfl, rfl, fun _ _ => rfl⟩

/-! ## Association-list helpers -/

theorem lookup_mem {α : Type} {l : List (Key × α)} {k : Key} {v : α}
    (h : l.lookup k = some v) : (k, v) ∈ l := by
  induction l with
  | nil => simp [List.lookup] at h
  | cons e rest ih =>
    obtain ⟨m, w⟩ := e
    by_cases hk : k = m
    · subst hk
      simp [List.lookup] at h
      simp [h]
    · have hb : (k == m) = false := by simp [hk]
      simp [List.lookup, hb] at h
      exact List.mem_cons_of_mem _ (ih h)

theorem mem_lookup {α : Type} {l : List (Key × α)} {k : Key} {v : α}
    (hnd : (l.map Prod.fst).Nodup) (h : (k, v) ∈ l) : l.lookup k = some v := by
  induction l with
  | nil => simp at h
  | cons e rest ih =>
    obtain ⟨m, w⟩ := e
    rw [List.map_cons, List.nodup_cons] at hnd
    rcases List.mem_cons.mp h with he | hrest
    · cases he
      simp [List.lookup]
    · have hk : k ≠ m := by
        rintro rfl
        have hmem : k ∈ rest.map Prod.fst := List.mem_map_of_mem Prod.fst hrest
        exact hnd.1 hmem
      have hb : (k == m) = false := by simp [hk]
      simp [List.lookup, hb]
      exact ih hnd.2 hrest

theorem lookup_isSome_iff {α : Type} {l : List (Key × α)} {k : Key} :
    (l.lookup k).isSome = true ↔ k ∈ l.map Prod.fst := by
  induction l with
  | nil => simp [List.lookup]
  | cons e rest ih =>
    obtain ⟨m, w⟩ := e
    by_cases hk : k = m
    · subst hk
      simp [List.lookup]
    · have hb : (k == m) = false := by simp [hk]
      simp [List.lookup, hb, ih, hk]

theorem lookup_map_keyed {α β : Type} (l : List (Key × α)) (f : Key × α → β)
    (k : Key) :
    (l.map (fun p => (p.1, f p))).lookup k = (l.lookup k).map (fun v => f (k, v)) := by
  induction l with
  | nil => simp [List.lookup]
  | cons e rest ih =>
    obtain ⟨m, w⟩ := e
    by_cases hk : k = m
    · subst hk
      simp [List.lookup]
    · have hb : (k == m) = false := by simp [hk]
      simp [List.lookup, hb, ih]

/-! ## Dependency-relation helpers -/

theorem mem_teamDeps {cfgs : List (Key × TeamConfig)} {ms : List Key} {d : Key} :
    d ∈ teamDeps cfgs ms ↔ d ∈ ms ∧ isTeamKey cfgs d = true := by
  simp [teamDeps, List.mem_dedup, List.mem_filter]

theorem teamDeps_nodup (cfgs : List (Key × TeamConfig)) (ms : List Key) :
    (teamDeps cfgs ms).Nodup :=
  List.nodup_dedup _

theorem isTeamKey_iff_mem {cfgs : List (Key × TeamConfig)} {k : Key} :
    isTeamKey cfgs k = true ↔ k ∈ teamKeys cfgs := by
  simp [isTeamKey, teamKeys, lookup_isSome_iff]

theorem tdeps_sub_keys {cfgs : List (Key × TeamConfig)} {k d : Key}
    (h : d ∈ tdeps cfgs k) : d ∈ teamKeys cfgs := by
  rw [tdeps] at h
  exact isTeamKey_iff_mem.mp (mem_teamDeps.mp h).2

theorem default_members : (default : TeamConfig).members = [] := rfl

theorem tdeps_eq_of_mem {cfgs : List (Key × TeamConfig)} {k : Key} {cfg : TeamConfig}
    (hnd : keysNodup cfgs) (h : (k, cfg) ∈ cfgs) :
    tdeps cfgs k = teamDeps cfgs cfg.members := by
  rw [tdeps, mem_lookup hnd h]
  rfl

theorem dependsOn_iff_tdeps {cfgs : List (Key × TeamConfig)} {t d : Key} :
    DependsOn cfgs t d ↔ d ∈ tdeps cfgs t := by
  rw [DependsOn, dependsOnB, tdeps]
  cases h : cfgs.lookup t with
  | none => simp [teamDeps, default_members]
  | some cfg => simp [List.elem_iff]

theorem tdeps_nil_of_not_mem {cfgs : List (Key × TeamConfig)} {k : Key}
    (h : k ∉ teamKeys cfgs) : tdeps cfgs k = [] := by
  rw [tdeps]
  cases hl : cfgs.lookup k with
  | none => simp [teamDeps, default_members]
  | some cfg =>
    exact absurd (lookup_isSome_iff.mp (by simp [hl])) h

/-! ## Lemmas about the while-loop primitives -/

theorem decKey_keys (indeg : List (Key × Int)) (k : Key) :
    (decKey indeg k).map Prod.fst = indeg.map Prod.fst := by
  induction indeg with
  | nil => rfl
  | cons e rest ih =>
    obtain ⟨m, v⟩ := e
    by_cases h : m = k <;> simp [decKey, h, ih]

theorem lookup_decKey (indeg : List (Key × Int)) (d x : Key) :
    (decKey indeg d).lookup x =
      if x = d then (indeg.lookup x).map (fun v => v - 1) else indeg.lookup x := by
  induction indeg with
  | nil => by_cases h : x = d <;> simp [decKey, List.lookup, h]
  | cons e rest ih =>
    obtain ⟨m, v⟩ := e
    by_cases hxm : x = m
    · subst hxm
      by_cases hmd : x = d
      · subst hmd
        simp [decKey, List.lookup]
      · simp [decKey, List.lookup, hmd]
    · have hb : (x == m) = false := by simp [hxm]
      by_cases hmd : m = d
      · subst hmd
        simp [decKey, List.lookup, hb, ih]
      · simp [decKey, List.lookup, hb, hmd, ih]

theorem processDeps_keys (dl : List Key) (indeg : List (Key × Int)) (q : List Key) :
    (processDeps indeg q dl).1.map Prod.fst = indeg.map Prod.fst := by
  induction dl generalizing indeg q with
  | nil => rfl
  | cons d rest ih =>
    rw [processDeps]
    rw [ih, decKey_keys]

theorem sumPos_decKey_le (indeg : List (Key × Int)) (d : Key) :
    sumPos (decKey indeg d) ≤ sumPos indeg := by
  induction indeg with
  | nil => simp [decKey]
  | cons e rest ih =>
    obtain ⟨m, v⟩ := e
    by_cases h : m = d <;> simp [decKey, h, sumPos] at ih ⊢ <;> omega

theorem sumPos_decKey_lt (indeg : List (Key × Int)) (d : Key) (v : Int)
    (hl : indeg.lookup d = some v) (hv : 1 ≤ v) :
    sumPos (decKey indeg d) + 1 ≤ sumPos indeg := by
  induction indeg with
  | nil => simp [List.lookup] at hl
  | cons e rest ih =>
    obtain ⟨m, w⟩ := e
    by_cases h : m = d
    · subst h
      simp [List.lookup] at hl
      subst hl
      have hle := sumPos_decKey_le rest m
      simp [decKey, sumPos] at hle ⊢
      omega
    · have hb : (d == m) = false := by simp [Ne.symm h]
      rw [List.lookup] at hl
      rw [hb] at hl
      have := ih hl
      simp [decKey, h, sumPos] at this ⊢
      omega

theorem decKey_zero_iff (indeg : List (Key × Int)) (d : Key) :
    (decKey indeg d).lookup d = some 0 ↔ indeg.lookup d = some 1 := by
  rw [lookup_decKey, if_pos rfl]
  cases indeg.lookup d with
  | none => simp
  | some v =>
    simp
    omega

theorem processDeps_measure (dl : List Key) (indeg : List (Key × Int)) (q : List Key) :
    (processDeps indeg q dl).2.length + sumPos (processDeps indeg q dl).1 ≤
      q.length + sumPos indeg := by
  induction dl generalizing indeg q with
  | nil => simp [processDeps]
  | cons d rest ih =>
    rw [processDeps]
    by_cases hz : (decKey indeg d).lookup d = some 0
    · rw [if_pos hz]
      have h1 : indeg.lookup d = some 1 := (decKey_zero_iff indeg d).mp hz
      have hdec := sumPos_decKey_lt indeg d 1 h1 (by omega)
      have hih := ih (decKey indeg d) (q ++ [d])
      simp [List.length_append] at hih ⊢
      omega
    · rw [if_neg hz]
      have hdec := sumPos_decKey_le indeg d
      have hih := ih (decKey indeg d) q
      omega

theorem processDeps_lookup_nodup (dl : List Key) (indeg : List (Key × Int))
    (q : List Key) (x : Key) (hnd : dl.Nodup) :
    (processDeps indeg q dl).1.lookup x =
      if x ∈ dl then (indeg.lookup x).map (fun v => v - 1) else indeg.lookup x := by
  induction dl generalizing indeg q with
  | nil => simp [processDeps]
  | cons d rest ih =>
    rw [List.nodup_cons] at hnd
    rw [processDeps]
    rw [ih _ _ hnd.2, lookup_decKey]
    by_cases hxd : x = d
    · subst hxd
      rw [if_pos rfl, if_neg (fun hmem => hnd.1 hmem), if_pos (List.mem_cons_self x rest)]
    · rw [if_neg hxd]
      by_cases hxr : x ∈ rest
      · rw [if_pos hxr, if_pos (List.mem_cons_of_mem d hxr)]
      · rw [if_neg hxr, if_neg (by simp [hxd, hxr])]

theorem processDeps_queue (dl : List Key) (indeg : List (Key × Int))
    (q : List Key) (hnd : dl.Nodup) :
    (processDeps indeg q dl).2 =
      q ++ dl.filter (fun d => decide (indeg.lookup d = some 1)) := by
  induction dl generalizing indeg q with
  | nil => simp [processDeps]
  | cons d rest ih =>
    rw [List.nodup_cons] at hnd
    rw [processDeps]
    have hfc : rest.filter (fun d' => decide ((decKey indeg d).lookup d' = some 1)) =
        rest.filter (fun d' => decide (indeg.lookup d' = some 1)) := by
      apply List.filter_congr
      intro a ha
      have hne : a ≠ d := fun h => hnd.1 (h ▸ ha)
      rw [lookup_decKey, if_neg hne]
    by_cases hz : (decKey indeg d).lookup d = some 0
    · rw [if_pos hz, ih _ _ hnd.2, hfc]
      have h1 : indeg.lookup d = some 1 := (decKey_zero_iff indeg d).mp hz
      rw [List.filter_cons_of_pos (by simp [h1]), List.append_assoc]
      rfl
    · rw [if_neg hz, ih _ _ hnd.2, hfc]
      have h1 : ¬ indeg.lookup d = some 1 := fun h => hz ((decKey_zero_iff indeg d).mpr h)
      rw [List.filter_cons_of_neg (by simp [h1])]

theorem processDeps_queue_prefix (dl : List Key) (indeg : List (Key × Int))
    (q : List Key) :
    ∃ app, (processDeps indeg q dl).2 = q ++ app := by
  induction dl generalizing indeg q with
  | nil => exact ⟨[], by simp [processDeps]⟩
  | cons d rest ih =>
    rw [processDeps]
    by_cases hz : (decKey indeg d).lookup d = some 0
    · rw [if_pos hz]
      obtain ⟨app, happ⟩ := ih (decKey indeg d) (q ++ [d])
      exact ⟨[d] ++ app, by rw [happ, List.append_assoc]⟩
    · rw [if_neg hz]
      exact ih (decKey indeg d) q

/-! ## Characterization of the `adj` dict -/

/-- The content of `adj[d]` after construction: the teams (in insertion
order of the definition mapping) that list `d` among their team-type
dependencies. -/
def dependentsOf (cfgs : List (Key × TeamConfig)) (d : Key) : List Key :=
  (cfgs.filter (fun p => (teamDeps cfgs p.2.members).contains d)).map Prod.fst

theorem lookup_adjAppend (ad : List (Key × List Key)) (d t x : Key) :
    (adjAppend ad d t).lookup x =
      if x = d then (ad.lookup x).map (fun b => b ++ [t]) else ad.lookup x := by
  induction ad with
  | nil => by_cases h : x = d <;> simp [adjAppend, List.lookup, h]
  | cons e rest ih =>
    obtain ⟨m, b⟩ := e
    by_cases hxm : x = m
    · subst hxm
      by_cases hmd : x = d
      · subst hmd
        simp [adjAppend, List.lookup]
      · simp [adjAppend, List.lookup, hmd]
    · have hb : (x == m) = false := by simp [hxm]
      by_cases hmd : m = d
      · subst hmd
        simp [adjAppend, List.lookup, hb, ih]
      · simp [adjAppend, List.lookup, hb, hmd, ih]

theorem lookup_innerFold (deps : List Key) (t : Key) (ad : List (Key × List Key))
    (x : Key) :
    ((deps.foldl (fun ad' d => adjAppend ad' d t) ad).lookup x) =
      (ad.lookup x).map (fun b => b ++ List.replicate (deps.count x) t) := by
  induction deps generalizing ad with
  | nil => simp
  | cons d rest ih =>
    rw [List.foldl_cons, ih, lookup_adjAppend]
    by_cases hxd : x = d
    · subst hxd
      rw [if_pos rfl]
      cases ad.lookup x <;>
        simp [List.count_cons, List.replicate_succ, List.append_assoc]
    · rw [if_neg hxd]
      cases ad.lookup x <;> simp [List.count_cons, hxd]

theorem lookup_outerFold (l : List (Key × TeamConfig))
    (cfgs : List (Key × TeamConfig)) (ad : List (Key × List Key)) (x : Key) :
    ((l.foldl
        (fun ad p =>
          (teamDeps cfgs p.2.members).foldl (fun ad' d => adjAppend ad' d p.1) ad)
        ad).lookup x) =
      (ad.lookup x).map
        (fun b =>
          b ++ (l.filter (fun p => (teamDeps cfgs p.2.members).contains x)).map
            Prod.fst) := by
  induction l generalizing ad with
  | nil => simp
  | cons p rest ih =>
    rw [List.foldl_cons, ih, lookup_innerFold]
    by_cases hx : x ∈ teamDeps cfgs p.2.members
    · have hcount : (teamDeps cfgs p.2.members).count x = 1 :=
        List.count_eq_one_of_mem (teamDeps_nodup cfgs p.2.members) hx
      have hcont : (teamDeps cfgs p.2.members).contains x = true := by
        simpa [List.elem_iff] using hx
      rw [hcount]
      cases h : ad.lookup x <;>
        simp [List.filter_cons, hcont, hx, List.append_assoc]
    · have hcount : (teamDeps cfgs p.2.members).count x = 0 := by
        rw [List.count_eq_zero]
        exact hx
      have hcont : ¬ ((teamDeps cfgs p.2.members).contains x = true) := by
        simpa [List.elem_iff] using hx
      rw [hcount]
      cases h : ad.lookup x <;>
        simp [List.filter_cons, hcont, hx]

theorem lookup_buildAdj (cfgs : List (Key × TeamConfig)) (x : Key) :
    (buildAdj cfgs).lookup x =
      if x ∈ teamKeys cfgs then some (dependentsOf cfgs x) else none := by
  rw [buildAdj, lookup_outerFold,
    show (cfgs.map (fun p => (p.1, ([] : List Key)))) =
      cfgs.map (fun p => (p.1, (fun _ => ([] : List Key)) p)) from rfl,
    lookup_map_keyed]
  by_cases hx : x ∈ teamKeys cfgs
  · rw [if_pos hx]
    obtain ⟨cfg, hcfg⟩ :=
      Option.isSome_iff_exists.mp (lookup_isSome_iff.mpr hx)
    rw [hcfg]
    simp [dependentsOf]
  · rw [if_neg hx]
    have hnone : cfgs.lookup x = none := by
      cases h : cfgs.lookup x with
      | none => rfl
      | some cfg => exact absurd (lookup_isSome_iff.mp (by simp [h])) hx
    rw [hnone]
    rfl

theorem adjList_eq {cfgs : List (Key × TeamConfig)} {x : Key}
    (hx : x ∈ teamKeys cfgs) : adjList cfgs x = dependentsOf cfgs x := by
  rw [adjList, lookup_buildAdj, if_pos hx]
  rfl

theorem mem_dependentsOf {cfgs : List (Key × TeamConfig)}
    (hnd : keysNodup cfgs) {x t : Key} :
    t ∈ dependentsOf cfgs x ↔ t ∈ teamKeys cfgs ∧ x ∈ tdeps cfgs t := by
  rw [dependentsOf]
  simp only [List.mem_map, List.mem_filter]
  constructor
  · rintro ⟨⟨t', cfg⟩, ⟨hmem, hcont⟩, rfl⟩
    refine ⟨List.mem_map_of_mem Prod.fst hmem, ?_⟩
    rw [tdeps_eq_of_mem hnd hmem]
    simpa [List.elem_iff] using hcont
  · rintro ⟨hkeys, hdep⟩
    obtain ⟨cfg, hcfg⟩ :=
      Option.isSome_iff_exists.mp (lookup_isSome_iff.mpr hkeys)
    refine ⟨(t, cfg), ⟨lookup_mem hcfg, ?_⟩, rfl⟩
    rw [tdeps, hcfg] at hdep
    simpa [List.elem_iff] using hdep

theorem dependentsOf_nodup {cfgs : List (Key × TeamConfig)}
    (hnd : keysNodup cfgs) (x : Key) : (dependentsOf cfgs x).Nodup := by
  rw [dependentsOf]
  exact ((List.filter_sublist cfgs).map Prod.fst).nodup hnd

theorem dependentsOf_sub_keys {cfgs : List (Key × TeamConfig)} {x t : Key}
    (h : t ∈ dependentsOf cfgs x) : t ∈ teamKeys cfgs := by
  rw [dependentsOf] at h
  obtain ⟨p, hp, rfl⟩ := List.mem_map.mp h
  exact List.mem_map_of_mem Prod.fst (List.mem_of_mem_filter hp)

/-! ## Small list helpers for the loop invariant -/

theorem indexOf_snoc_self (l : List Key) (a : Key) (h : a ∉ l) :
    (l ++ [a]).indexOf a = l.length := by
  induction l with
  | nil => simp
  | cons b rest ih =>
    have hab : a ≠ b := fun hh => h (hh ▸ List.mem_cons_self b rest)
    have hrest : a ∉ rest := fun hh => h (List.mem_cons_of_mem b hh)
    simp [List.indexOf_cons, Ne.symm hab, ih hrest]

theorem length_filter_ne (m : List Key) (c : Key) (hnd : m.Nodup) (hc : c ∈ m) :
    (m.filter (fun d => !(d == c))).length + 1 = m.length := by
  induction m with
  | nil => cases hc
  | cons a rest ih =>
    rw [List.nodup_cons] at hnd
    by_cases hac : a = c
    · subst hac
      have hall : rest.filter (fun d => !(d == a)) = rest := by
        apply List.filter_eq_self.mpr
        intro b hb
        simp
        rintro rfl
        exact hnd.1 hb
      simp [List.filter_cons, hall]
    · rcases List.mem_cons.mp hc with rfl | hcr
      · exact absurd rfl hac
      · have hih := ih hnd.2 hcr
        simp [List.filter_cons, hac]
        omega

theorem filter_snoc_out (l out : List Key) (c : Key) :
    l.filter (fun d => !(out ++ [c]).contains d) =
      (l.filter (fun d => !out.contains d)).filter (fun d => !(d == c)) := by
  rw [List.filter_filter]
  apply List.filter_congr
  intro a _
  by_cases h1 : a ∈ out <;> by_cases h2 : a = c <;>
    simp [h1, h2, List.elem_iff]

theorem filter_snoc_out_not_mem (l out : List Key) (c : Key) (hc : c ∉ l) :
    l.filter (fun d => !(out ++ [c]).contains d) =
      l.filter (fun d => !out.contains d) := by
  apply List.filter_congr
  intro a ha
  have hac : a ≠ c := fun hh => hc (hh ▸ ha)
  by_cases h1 : a ∈ out <;> simp [h1, hac, List.elem_iff]

theorem eq_singleton_of_all_eq (l : List Key) (c : Key) (hne : c ∈ l)
    (hnd : l.Nodup) (hall : ∀ x ∈ l, x = c) : l = [c] := by
  cases l with
  | nil => cases hne
  | cons a rest =>
    have ha : a = c := hall a (List.mem_cons_self a rest)
    subst ha
    rw [List.nodup_cons] at hnd
    cases rest with
    | nil => rfl
    | cons b rest2 =>
      have hb : b = a := hall b (List.mem_cons_of_mem a (List.mem_cons_self b rest2))
      exact absurd (hb ▸ List.mem_cons_self b rest2) hnd.1

theorem mem_filterVal_keys {β : Type} (l : List (Key × β)) (p : β → Bool)
    (hnd : (l.map Prod.fst).Nodup) (k : Key) :
    (k ∈ (l.filter (fun e => p e.2)).map Prod.fst) ↔
      ∃ v, l.lookup k = some v ∧ p v = true := by
  simp only [List.mem_map, List.mem_filter]
  constructor
  · rintro ⟨⟨k', v⟩, ⟨hm, hp⟩, rfl⟩
    exact ⟨v, mem_lookup hnd hm, hp⟩
  · rintro ⟨v, hl, hp⟩
    exact ⟨(k, v), ⟨lookup_mem hl, hp⟩, rfl⟩

/-! ## The while-loop invariant -/

theorem tdeps_nodup (cfgs : List (Key × TeamConfig)) (k : Key) :
    (tdeps cfgs k).Nodup :=
  teamDeps_nodup _ _

/-- Invariant of the while loop of `_topological_sort`: the in-degree dict
keeps the original key set and counts, for each key, its team-type
dependencies not yet popped; a key has been popped or queued exactly when
all its dependencies are popped; the popped list is topologically ordered
and never repeats a key. -/
structure KahnInv (cfgs : List (Key × TeamConfig)) (queue : List Key)
    (indeg : List (Key × Int)) (out : List Key) : Prop where
  keysEq : indeg.map Prod.fst = teamKeys cfgs
  outSub : ∀ k ∈ out, k ∈ teamKeys cfgs
  queueSub : ∀ k ∈ queue, k ∈ teamKeys cfgs
  nodupOQ : (out ++ queue).Nodup
  indegVal : ∀ k ∈ teamKeys cfgs,
    indeg.lookup k =
      some (((tdeps cfgs k).filter (fun d => !out.contains d)).length : Int)
  reached : ∀ k ∈ teamKeys cfgs,
    ((k ∈ out ∨ k ∈ queue) ↔ ∀ d ∈ tdeps cfgs k, d ∈ out)
  ordered : ∀ k ∈ out, ∀ d ∈ tdeps cfgs k,
    d ∈ out ∧ out.indexOf d < out.indexOf k

theorem kahnInv_step (cfgs : List (Key × TeamConfig)) (hnd : keysNodup cfgs)
    (c : Key) (rest : List Key) (indeg : List (Key × Int)) (out : List Key)
    (h : KahnInv cfgs (c :: rest) indeg out) :
    KahnInv cfgs (processDeps indeg rest (adjList cfgs c)).2
      (processDeps indeg rest (adjList cfgs c)).1 (out ++ [c]) := by
  have hcK : c ∈ teamKeys cfgs := h.queueSub c (List.mem_cons_self c rest)
  have hadj : adjList cfgs c = dependentsOf cfgs c := adjList_eq hcK
  have hdlnd : (dependentsOf cfgs c).Nodup := dependentsOf_nodup hnd c
  have hdisj : out.Disjoint (c :: rest) := List.disjoint_of_nodup_append h.nodupOQ
  have hcout : c ∉ out := fun hco => hdisj hco (List.mem_cons_self c rest)
  have hcdeps : ∀ d ∈ tdeps cfgs c, d ∈ out :=
    (h.reached c hcK).mp (Or.inr (List.mem_cons_self c rest))
  have hq : (processDeps indeg rest (adjList cfgs c)).2 =
      rest ++ (dependentsOf cfgs c).filter
        (fun d => decide (indeg.lookup d = some 1)) := by
    rw [hadj]
    exact processDeps_queue _ _ _ hdlnd
  have hik : ∀ x, (processDeps indeg rest (adjList cfgs c)).1.lookup x =
      if x ∈ dependentsOf cfgs c then (indeg.lookup x).map (fun v => v - 1)
      else indeg.lookup x := by
    intro x
    rw [hadj]
    exact processDeps_lookup_nodup _ _ _ _ hdlnd
  have hdl_iff : ∀ x ∈ teamKeys cfgs,
      (x ∈ dependentsOf cfgs c ↔ c ∈ tdeps cfgs x) := by
    intro x hx
    rw [mem_dependentsOf hnd]
    exact ⟨fun hh => hh.2, fun hh => ⟨hx, hh⟩⟩
  have happ_mem : ∀ d,
      (d ∈ (dependentsOf cfgs c).filter
        (fun d => decide (indeg.lookup d = some 1))) ↔
      d ∈ dependentsOf cfgs c ∧
        ((tdeps cfgs d).filter (fun x => !out.contains x)).length = 1 := by
    intro d
    rw [List.mem_filter]
    constructor
    · rintro ⟨hmem, hp⟩
      refine ⟨hmem, ?_⟩
      have hdk : d ∈ teamKeys cfgs := dependentsOf_sub_keys hmem
      rw [h.indegVal d hdk] at hp
      simp only [decide_eq_true_eq, Option.some.injEq] at hp
      exact_mod_cast hp
    · rintro ⟨hmem, hlen⟩
      refine ⟨hmem, ?_⟩
      have hdk : d ∈ teamKeys cfgs := dependentsOf_sub_keys hmem
      rw [h.indegVal d hdk]
      have hInt : (((tdeps cfgs d).filter (fun x => !out.contains x)).length : Int) = 1 := by
        exact_mod_cast hlen
      rw [hInt]
      rfl
  have happ_fresh : ∀ d ∈ (dependentsOf cfgs c).filter
      (fun d => decide (indeg.lookup d = some 1)), d ∉ out ∧ d ∉ c :: rest := by
    intro d hd
    obtain ⟨hmem, hlen⟩ := (happ_mem d).mp hd
    have hdk : d ∈ teamKeys cfgs := dependentsOf_sub_keys hmem
    have hnsub : ¬ ∀ d' ∈ tdeps cfgs d, d' ∈ out := by
      intro hsub
      have hz : (tdeps cfgs d).filter (fun x => !out.contains x) = [] := by
        rw [List.filter_eq_nil_iff]
        intro a ha
        simp [List.elem_iff, hsub a ha]
      rw [hz] at hlen
      simp at hlen
    have hnot := fun hor => hnsub ((h.reached d hdk).mp hor)
    exact ⟨fun hh => hnot (Or.inl hh), fun hh => hnot (Or.inr hh)⟩
  have happ_deps : ∀ d ∈ (dependentsOf cfgs c).filter
      (fun d => decide (indeg.lookup d = some 1)),
      ∀ d' ∈ tdeps cfgs d, d' ∈ out ++ [c] := by
    intro d hd d' hd'
    obtain ⟨hmem, hlen⟩ := (happ_mem d).mp hd
    have hdk : d ∈ teamKeys cfgs := dependentsOf_sub_keys hmem
    have hcd : c ∈ tdeps cfgs d := (hdl_iff d hdk).mp hmem
    have hcrem : c ∈ (tdeps cfgs d).filter (fun x => !out.contains x) := by
      rw [List.mem_filter]
      exact ⟨hcd, by simp [List.elem_iff, hcout]⟩
    have hsingle : (tdeps cfgs d).filter (fun x => !out.contains x) = [c] := by
      cases hrem : (tdeps cfgs d).filter (fun x => !out.contains x) with
      | nil =>
        rw [hrem] at hcrem
        cases hcrem
      | cons a tail =>
        rw [hrem] at hlen hcrem
        cases tail with
        | nil =>
          rcases List.mem_cons.mp hcrem with rfl | hh
          · rfl
          · cases hh
        | cons b t2 => simp at hlen
    by_cases hdo : d' ∈ out
    · exact List.mem_append.mpr (Or.inl hdo)
    · have hmem2 : d' ∈ (tdeps cfgs d).filter (fun x => !out.contains x) := by
        rw [List.mem_filter]
        exact ⟨hd', by simp [List.elem_iff, hdo]⟩
      rw [hsingle] at hmem2
      rw [List.mem_singleton.mp hmem2]
      exact List.mem_append.mpr (Or.inr (List.mem_cons_self c []))
  constructor
  · rw [processDeps_keys]
    exact h.keysEq
  · intro k hk
    rcases List.mem_append.mp hk with h1 | h2
    · exact h.outSub k h1
    · rw [List.mem_singleton.mp h2]
      exact hcK
  · rw [hq]
    intro k hk
    rcases List.mem_append.mp hk with h1 | h2
    · exact h.queueSub k (List.mem_cons_of_mem c h1)
    · exact dependentsOf_sub_keys (List.mem_of_mem_filter h2)
  · rw [hq, ← List.append_assoc]
    have hXnd : ((out ++ [c]) ++ rest).Nodup := by
      have heq : (out ++ [c]) ++ rest = out ++ c :: rest := by simp
      rw [heq]
      exact h.nodupOQ
    refine hXnd.append (hdlnd.filter _) ?_
    intro a ha hap
    obtain ⟨hno, hnq⟩ := happ_fresh a hap
    rcases List.mem_append.mp ha with h1 | h2
    · rcases List.mem_append.mp h1 with h3 | h4
      · exact hno h3
      · exact hnq (by rw [List.mem_singleton.mp h4]; exact List.mem_cons_self c rest)
    · exact hnq (List.mem_cons_of_mem c h2)
  · intro k hk
    rw [hik k]
    by_cases hkdl : k ∈ dependentsOf cfgs c
    · rw [if_pos hkdl]
      have hcd : c ∈ tdeps cfgs k := (hdl_iff k hk).mp hkdl
      rw [h.indegVal k hk, filter_snoc_out]
      have hm : c ∈ (tdeps cfgs k).filter (fun d => !out.contains d) := by
        rw [List.mem_filter]
        exact ⟨hcd, by simp [List.elem_iff, hcout]⟩
      have hlen := length_filter_ne ((tdeps cfgs k).filter (fun d => !out.contains d)) c
        ((List.filter_sublist _).nodup (tdeps_nodup cfgs k)) hm
      simp only [Option.map_some', Option.some_inj]
      omega
    · rw [if_neg hkdl]
      have hcd : c ∉ tdeps cfgs k := fun hh => hkdl ((hdl_iff k hk).mpr hh)
      rw [h.indegVal k hk, filter_snoc_out_not_mem _ _ _ hcd]
  · intro k hk
    rw [hq]
    constructor
    · rintro (hko | hkq)
      · rcases List.mem_append.mp hko with h1 | h2
        · intro d hd
          exact List.mem_append.mpr
            (Or.inl (((h.reached k hk).mp (Or.inl h1)) d hd))
        · intro d hd
          rw [List.mem_singleton.mp h2] at hd
          exact List.mem_append.mpr (Or.inl (hcdeps d hd))
      · rcases List.mem_append.mp hkq with h1 | h2
        · intro d hd
          exact List.mem_append.mpr
            (Or.inl (((h.reached k hk).mp (Or.inr (List.mem_cons_of_mem c h1))) d hd))
        · exact happ_deps k h2
    · intro hsub
      by_cases hcd : c ∈ tdeps cfgs k
      · right
        rw [List.mem_append]
        right
        rw [happ_mem]
        refine ⟨(hdl_iff k hk).mpr hcd, ?_⟩
        have hcrem : c ∈ (tdeps cfgs k).filter (fun x => !out.contains x) := by
          rw [List.mem_filter]
          exact ⟨hcd, by simp [List.elem_iff, hcout]⟩
        have hsingle := eq_singleton_of_all_eq
          ((tdeps cfgs k).filter (fun x => !out.contains x)) c hcrem
          ((List.filter_sublist _).nodup (tdeps_nodup cfgs k)) ?_
        · rw [hsingle]
          rfl
        · intro x hx
          rw [List.mem_filter] at hx
          obtain ⟨hx1, hx2⟩ := hx
          rcases List.mem_append.mp (hsub x hx1) with hxo | hxc
          · exfalso
            revert hx2
            simp [List.elem_iff, hxo]
          · exact List.mem_singleton.mp hxc
      · have hsubo : ∀ d ∈ tdeps cfgs k, d ∈ out := by
          intro d hd
          rcases List.mem_append.mp (hsub d hd) with hdo | hdc
          · exact hdo
          · exact absurd (List.mem_singleton.mp hdc ▸ hd) hcd
        rcases (h.reached k hk).mpr hsubo with hko | hkq
        · exact Or.inl (List.mem_append.mpr (Or.inl hko))
        · rcases List.mem_cons.mp hkq with rfl | hkr
          · exact Or.inl (List.mem_append.mpr (Or.inr (List.mem_cons_self k [])))
          · exact Or.inr (List.mem_append.mpr (Or.inl hkr))
  · intro k hk d hd
    rcases List.mem_append.mp hk with h1 | h2
    · obtain ⟨hdo, hidx⟩ := h.ordered k h1 d hd
      refine ⟨List.mem_append.mpr (Or.inl hdo), ?_⟩
      rw [List.indexOf_append_of_mem hdo, List.indexOf_append_of_mem h1]
      exact hidx
    · rw [List.mem_singleton.mp h2] at hd ⊢
      have hdo : d ∈ out := hcdeps d hd
      refine ⟨List.mem_append.mpr (Or.inl hdo), ?_⟩
      rw [List.indexOf_append_of_mem hdo, indexOf_snoc_self out c hcout]
      exact List.indexOf_lt_length.mpr hdo

theorem kahnFuel_inv (cfgs : List (Key × TeamConfig)) (hnd : keysNodup cfgs) :
    ∀ (fuel : Nat) (queue : List Key) (indeg : List (Key × Int)) (out : List Key),
      queue.length + sumPos indeg ≤ fuel →
      KahnInv cfgs queue indeg out →
      KahnInv cfgs [] (kahnFuel (adjList cfgs) fuel queue indeg out).2
        (kahnFuel (adjList cfgs) fuel queue indeg out).1 := by
  intro fuel
  induction fuel with
  | zero =>
    intro queue indeg out hfuel h
    have hq : queue = [] := by
      cases queue with
      | nil => rfl
      | cons a t =>
        exfalso
        have hlc : (a :: t).length = t.length + 1 := rfl
        omega
    subst hq
    exact h
  | succ fuel ih =>
    intro queue indeg out hfuel h
    cases queue with
    | nil => exact h
    | cons c rest =>
      rw [kahnFuel]
      have hstep := kahnInv_step cfgs hnd c rest indeg out h
      have hm := processDeps_measure (adjList cfgs c) indeg rest
      apply ih
      · have hlc : (c :: rest).length = rest.length + 1 := rfl
        omega
      · exact hstep

theorem kahnInv_init (cfgs : List (Key × TeamConfig)) (hnd : keysNodup cfgs) :
    KahnInv cfgs (initQueue cfgs) (initIndeg cfgs) [] := by
  have hkeys : (initIndeg cfgs).map Prod.fst = teamKeys cfgs := by
    simp [initIndeg, teamKeys]
  have hkeysnd : ((initIndeg cfgs).map Prod.fst).Nodup := by
    rw [hkeys]
    exact hnd
  have hlookup : ∀ k ∈ teamKeys cfgs,
      (initIndeg cfgs).lookup k = some (((tdeps cfgs k).length : Int)) := by
    intro k hk
    rw [initIndeg,
      show (fun (p : Key × TeamConfig) =>
          (p.1, ((teamDeps cfgs p.2.members).length : Int))) =
        (fun (p : Key × TeamConfig) =>
          (p.1, (fun (q : Key × TeamConfig) =>
            ((teamDeps cfgs q.2.members).length : Int)) p)) from rfl,
      lookup_map_keyed]
    obtain ⟨cfg, hcfg⟩ := Option.isSome_iff_exists.mp (lookup_isSome_iff.mpr hk)
    rw [hcfg]
    simp [tdeps, hcfg]
  have hmq : ∀ k ∈ teamKeys cfgs,
      (k ∈ initQueue cfgs ↔ tdeps cfgs k = []) := by
    intro k hk
    rw [initQueue]
    show (k ∈ ((initIndeg cfgs).filter
        (fun e => (fun v : Int => v == 0) e.2)).map Prod.fst) ↔ _
    rw [mem_filterVal_keys (initIndeg cfgs) (fun v : Int => v == 0) hkeysnd k]
    constructor
    · rintro ⟨v, hv, hp⟩
      have heq : some (((tdeps cfgs k).length : Int)) = some v :=
        (hlookup k hk).symm.trans hv
      have hveq : ((tdeps cfgs k).length : Int) = v := by injection heq
      have hv0 : v = 0 := by simpa using hp
      rw [← List.length_eq_zero]
      omega
    · intro hnil
      refine ⟨0, ?_, by simp⟩
      rw [hlookup k hk, hnil]
      rfl
  constructor
  · exact hkeys
  · intro k hk
    cases hk
  · intro k hk
    rw [initQueue] at hk
    obtain ⟨v, hv, _⟩ :=
      (mem_filterVal_keys (initIndeg cfgs) (fun v : Int => v == 0) hkeysnd k).mp hk
    have : ((initIndeg cfgs).lookup k).isSome = true := by
      rw [hv]
      rfl
    rw [lookup_isSome_iff, hkeys] at this
    exact this
  · simp only [List.nil_append]
    rw [initQueue]
    exact ((List.filter_sublist _).map Prod.fst).nodup hkeysnd
  · intro k hk
    rw [hlookup k hk]
    have hfe : (tdeps cfgs k).filter (fun d => !([] : List Key).contains d) =
        tdeps cfgs k := by
      apply List.filter_eq_self.mpr
      intro a _
      rfl
    rw [hfe]
  · intro k hk
    constructor
    · rintro (h0 | hq)
      · cases h0
      · intro d hd
        rw [hmq k hk] at hq
        rw [hq] at hd
        cases hd
    · intro hsub
      right
      rw [hmq k hk, ← List.subset_nil]
      intro d hd
      exact hsub d hd
  · intro k hk
    cases hk

theorem kahnRun_inv (cfgs : List (Key × TeamConfig)) (hnd : keysNodup cfgs) :
    KahnInv cfgs [] (kahnRun cfgs).2 (kahnRun cfgs).1 := by
  rw [kahnRun]
  exact kahnFuel_inv cfgs hnd _ _ _ _ (le_refl _) (kahnInv_init cfgs hnd)

/-! ## Consequences of the invariant at loop exit -/

theorem topoOut_nodup (cfgs : List (Key × TeamConfig)) (hnd : keysNodup cfgs) :
    (topoOut cfgs).Nodup := by
  have h := (kahnRun_inv cfgs hnd).nodupOQ
  rw [List.append_nil] at h
  exact h

theorem topoOut_sub (cfgs : List (Key × TeamConfig)) (hnd : keysNodup cfgs) :
    ∀ k ∈ topoOut cfgs, k ∈ teamKeys cfgs :=
  (kahnRun_inv cfgs hnd).outSub

theorem topoOut_reached (cfgs : List (Key × TeamConfig)) (hnd : keysNodup cfgs) :
    ∀ k ∈ teamKeys cfgs,
      (k ∈ topoOut cfgs ↔ ∀ d ∈ tdeps cfgs k, d ∈ topoOut cfgs) := by
  intro k hk
  have h := (kahnRun_inv cfgs hnd).reached k hk
  simpa using h

theorem topoOut_ordered (cfgs : List (Key × TeamConfig)) (hnd : keysNodup cfgs) :
    ∀ k ∈ topoOut cfgs, ∀ d ∈ tdeps cfgs k,
      d ∈ topoOut cfgs ∧ (topoOut cfgs).indexOf d < (topoOut cfgs).indexOf k :=
  (kahnRun_inv cfgs hnd).ordered

theorem kahnRun_indeg (cfgs : List (Key × TeamConfig)) (hnd : keysNodup cfgs) :
    ∀ k ∈ teamKeys cfgs,
      (kahnRun cfgs).2.lookup k =
        some (((tdeps cfgs k).filter
          (fun d => !(topoOut cfgs).contains d)).length : Int) :=
  (kahnRun_inv cfgs hnd).indegVal

theorem topoOut_closed_refl (cfgs : List (Key × TeamConfig)) (hnd : keysNodup cfgs) :
    ∀ a b, Relation.ReflTransGen (DependsOn cfgs) a b →
      a ∈ topoOut cfgs → b ∈ topoOut cfgs := by
  intro a b h
  induction h with
  | refl => exact id
  | tail hab hbc ih =>
    intro ha
    have hbmem := ih ha
    have hdep := dependsOn_iff_tdeps.mp hbc
    have hbk : _ ∈ teamKeys cfgs := topoOut_sub cfgs hnd _ hbmem
    exact ((topoOut_reached cfgs hnd _ hbk).mp hbmem) _ hdep

theorem topoOut_no_cycle (cfgs : List (Key × TeamConfig)) (hnd : keysNodup cfgs) :
    ∀ c ∈ topoOut cfgs, ¬ Relation.TransGen (DependsOn cfgs) c c := by
  have hdesc : ∀ a b, Relation.TransGen (DependsOn cfgs) a b →
      a ∈ topoOut cfgs → b ∈ topoOut cfgs ∧
        (topoOut cfgs).indexOf b < (topoOut cfgs).indexOf a := by
    intro a b h
    induction h with
    | single hab =>
      intro ha
      exact topoOut_ordered cfgs hnd a ha _ (dependsOn_iff_tdeps.mp hab)
    | tail hab hbc ih =>
      intro ha
      obtain ⟨hb, hlt⟩ := ih ha
      obtain ⟨hc, hlt2⟩ := topoOut_ordered cfgs hnd _ hb _ (dependsOn_iff_tdeps.mp hbc)
      exact ⟨hc, lt_trans hlt2 hlt⟩
  intro c hc hcyc
  have := (hdesc c c hcyc hc).2
  omega

/-! ## Pigeonhole: a closed successor set contains a reachable cycle -/

theorem cycle_reach_of_closed (r : Key → Key → Prop) (S : Finset Key)
    (hstep : ∀ x ∈ S, ∃ y ∈ S, r x y) :
    ∀ k ∈ S, ∃ c, Relation.TransGen r c c ∧ Relation.ReflTransGen r k c := by
  intro k hk
  have hf : ∀ x : {a // a ∈ S}, ∃ y : {a // a ∈ S}, r x.val y.val := by
    intro x
    obtain ⟨y, hy, hr⟩ := hstep x.val x.property
    exact ⟨⟨y, hy⟩, hr⟩
  choose f hfr using hf
  have hrefl : ∀ (n : Nat) (x : {a // a ∈ S}),
      Relation.ReflTransGen r x.val ((f^[n]) x).val := by
    intro n
    induction n with
    | zero =>
      intro x
      exact Relation.ReflTransGen.refl
    | succ n ih =>
      intro x
      rw [Function.iterate_succ_apply']
      exact (ih x).tail (hfr _)
  have htrans : ∀ (n : Nat) (x : {a // a ∈ S}),
      Relation.TransGen r x.val ((f^[n + 1]) x).val := by
    intro n
    induction n with
    | zero =>
      intro x
      rw [Function.iterate_one]
      exact Relation.TransGen.single (hfr x)
    | succ n ih =>
      intro x
      rw [Function.iterate_succ_apply']
      exact (ih x).tail (hfr _)
  have key : ∀ i j : Nat, i < j → (f^[i]) ⟨k, hk⟩ = (f^[j]) ⟨k, hk⟩ →
      ∃ c, Relation.TransGen r c c ∧ Relation.ReflTransGen r k c := by
    intro i j hij heq
    refine ⟨((f^[i]) ⟨k, hk⟩).val, ?_, hrefl i ⟨k, hk⟩⟩
    have hdecomp : (f^[j]) ⟨k, hk⟩ = (f^[(j - i - 1) + 1]) ((f^[i]) ⟨k, hk⟩) := by
      rw [← Function.iterate_add_apply]
      congr 1
      omega
    have htg := htrans (j - i - 1) ((f^[i]) ⟨k, hk⟩)
    rw [← hdecomp, ← heq] at htg
    exact htg
  obtain ⟨i, j, hij, heq⟩ :=
    Finite.exists_ne_map_eq_of_infinite (fun n : Nat => (f^[n]) ⟨k, hk⟩)
  rcases lt_or_gt_of_ne hij with hlt | hgt
  · exact key i j hlt heq
  · exact key j i hgt heq.symm

theorem stuck_has_stuck_dep (cfgs : List (Key × TeamConfig)) (hnd : keysNodup cfgs) :
    ∀ k ∈ teamKeys cfgs, k ∉ topoOut cfgs →
      ∃ d, DependsOn cfgs k d ∧ d ∈ teamKeys cfgs ∧ d ∉ topoOut cfgs := by
  intro k hk hko
  by_contra hcon
  push_neg at hcon
  have hsub : ∀ d ∈ tdeps cfgs k, d ∈ topoOut cfgs := by
    intro d hd
    exact hcon d (dependsOn_iff_tdeps.mpr hd) (tdeps_sub_keys hd)
  exact hko ((topoOut_reached cfgs hnd k hk).mpr hsub)

theorem stuck_reaches_cycle (cfgs : List (Key × TeamConfig)) (hnd : keysNodup cfgs) :
    ∀ k ∈ teamKeys cfgs, k ∉ topoOut cfgs →
      ∃ c, Relation.TransGen (DependsOn cfgs) c c ∧
        Relation.ReflTransGen (DependsOn cfgs) k c := by
  classical
  intro k hk hko
  have hmemS : ∀ x,
      (x ∈ (teamKeys cfgs).toFinset.filter (fun x => x ∉ topoOut cfgs)) ↔
        (x ∈ teamKeys cfgs ∧ x ∉ topoOut cfgs) := by
    intro x
    simp [List.mem_toFinset]
  have hstep : ∀ x ∈ (teamKeys cfgs).toFinset.filter (fun x => x ∉ topoOut cfgs),
      ∃ y ∈ (teamKeys cfgs).toFinset.filter (fun x => x ∉ topoOut cfgs),
        DependsOn cfgs x y := by
    intro x hx
    obtain ⟨hxk, hxo⟩ := (hmemS x).mp hx
    obtain ⟨d, hdep, hdk, hdo⟩ := stuck_has_stuck_dep cfgs hnd x hxk hxo
    exact ⟨d, (hmemS d).mpr ⟨hdk, hdo⟩, hdep⟩
  exact cycle_reach_of_closed _ _ hstep k ((hmemS k).mpr ⟨hk, hko⟩)

theorem cycle_reach_stuck (cfgs : List (Key × TeamConfig)) (hnd : keysNodup cfgs)
    (k c : Key) (hcyc : Relation.TransGen (DependsOn cfgs) c c)
    (hreach : Relation.ReflTransGen (DependsOn cfgs) k c) :
    k ∉ topoOut cfgs := by
  intro hko
  have hc : c ∈ topoOut cfgs := topoOut_closed_refl cfgs hnd k c hreach hko
  exact topoOut_no_cycle cfgs hnd c hc hcyc

theorem mem_keys_of_dependsOn {cfgs : List (Key × TeamConfig)} {t d : Key}
    (h : DependsOn cfgs t d) : t ∈ teamKeys cfgs := by
  by_contra hk
  rw [dependsOn_iff_tdeps, tdeps_nil_of_not_mem hk] at h
  cases h

theorem topoOut_complete_of_acyclic (cfgs : List (Key × TeamConfig))
    (hnd : keysNodup cfgs)
    (hacyc : ∀ k, ¬ Relation.TransGen (DependsOn cfgs) k k) :
    ∀ k ∈ teamKeys cfgs, k ∈ topoOut cfgs := by
  intro k hk
  by_contra hko
  obtain ⟨c, hcyc, _⟩ := stuck_reaches_cycle cfgs hnd k hk hko
  exact hacyc c hcyc

theorem topoOut_perm_of_complete (cfgs : List (Key × TeamConfig))
    (hnd : keysNodup cfgs)
    (hcomp : ∀ k ∈ teamKeys cfgs, k ∈ topoOut cfgs) :
    (topoOut cfgs).Perm (teamKeys cfgs) :=
  (List.subperm_of_subset (topoOut_nodup cfgs hnd)
    (fun a hx => topoOut_sub cfgs hnd a hx)).antisymm
    (List.subperm_of_subset hnd (fun a hx => hcomp a hx))

theorem topological_sort_ok_of_acyclic (cfgs : List (Key × TeamConfig))
    (hnd : keysNodup cfgs)
    (hacyc : ∀ k, ¬ Relation.TransGen (DependsOn cfgs) k k) :
    topological_sort cfgs = .ok (topoOut cfgs) := by
  have hperm := topoOut_perm_of_complete cfgs hnd
    (topoOut_complete_of_acyclic cfgs hnd hacyc)
  have hlen : (topoOut cfgs).length = cfgs.length := by
    rw [hperm.length_eq]
    simp [teamKeys]
  rw [topological_sort]
  exact if_pos hlen

theorem topoOut_misses_cycle_key (cfgs : List (Key × TeamConfig))
    (hnd : keysNodup cfgs) (c : Key)
    (hcyc : Relation.TransGen (DependsOn cfgs) c c) :
    c ∈ teamKeys cfgs ∧ c ∉ topoOut cfgs := by
  have hck : c ∈ teamKeys cfgs := by
    obtain ⟨d, h1, _⟩ := Relation.TransGen.head'_iff.mp hcyc
    exact mem_keys_of_dependsOn h1
  refine ⟨hck, fun hco => topoOut_no_cycle cfgs hnd c hco hcyc⟩

theorem topological_sort_error_branch (cfgs : List (Key × TeamConfig))
    (hnd : keysNodup cfgs)
    (hcyc : ∃ c, Relation.TransGen (DependsOn cfgs) c c) :
    topological_sort cfgs =
      .error (((kahnRun cfgs).2.filter (fun p => 0 < p.2)).map Prod.fst) := by
  obtain ⟨c, hc⟩ := hcyc
  obtain ⟨hck, hco⟩ := topoOut_misses_cycle_key cfgs hnd c hc
  have hlen : (topoOut cfgs).length ≠ cfgs.length := by
    intro hlen
    have hsp := List.subperm_of_subset (topoOut_nodup cfgs hnd)
      (fun a hx => topoOut_sub cfgs hnd a hx)
    have hperm := hsp.perm_of_length_le
      (by simp only [teamKeys, List.length_map]; omega)
    exact hco (hperm.mem_iff.mpr hck)
  rw [topological_sort]
  exact if_neg hlen

theorem errKeys_iff (cfgs : List (Key × TeamConfig)) (hnd : keysNodup cfgs) :
    ∀ k, (k ∈ ((kahnRun cfgs).2.filter (fun p => 0 < p.2)).map Prod.fst) ↔
      (k ∈ teamKeys cfgs ∧ k ∉ topoOut cfgs) := by
  intro k
  have hkeys : (kahnRun cfgs).2.map Prod.fst = teamKeys cfgs :=
    (kahnRun_inv cfgs hnd).keysEq
  have hkeysnd : ((kahnRun cfgs).2.map Prod.fst).Nodup := by
    rw [hkeys]
    exact hnd
  show (k ∈ ((kahnRun cfgs).2.filter
      (fun e => (fun v : Int => decide (0 < v)) e.2)).map Prod.fst) ↔ _
  rw [mem_filterVal_keys ((kahnRun cfgs).2) (fun v : Int => decide (0 < v)) hkeysnd k]
  constructor
  · rintro ⟨v, hv, hp⟩
    have hk : k ∈ teamKeys cfgs := by
      rw [← hkeys]
      exact lookup_isSome_iff.mp (by simp [hv])
    refine ⟨hk, ?_⟩
    rw [kahnRun_indeg cfgs hnd k hk] at hv
    have hveq : (((tdeps cfgs k).filter
        (fun d => !(topoOut cfgs).contains d)).length : Int) = v := by
      injection hv
    have hpos : (0 : Int) < v := by simpa using hp
    intro hko
    have hsub := (topoOut_reached cfgs hnd k hk).mp hko
    have hz : (tdeps cfgs k).filter (fun d => !(topoOut cfgs).contains d) = [] := by
      rw [List.filter_eq_nil_iff]
      intro a ha
      simp [List.elem_iff, hsub a ha]
    rw [hz] at hveq
    simp at hveq
    omega
  · rintro ⟨hk, hko⟩
    have hnsub : ¬ ∀ d ∈ tdeps cfgs k, d ∈ topoOut cfgs :=
      fun hsub => hko ((topoOut_reached cfgs hnd k hk).mpr hsub)
    push_neg at hnsub
    obtain ⟨d, hd, hdo⟩ := hnsub
    refine ⟨_, kahnRun_indeg cfgs hnd k hk, ?_⟩
    have hdm : d ∈ (tdeps cfgs k).filter (fun x => !(topoOut cfgs).contains x) := by
      rw [List.mem_filter]
      exact ⟨hd, by simp [List.elem_iff, hdo]⟩
    have hpos : 0 < ((tdeps cfgs k).filter
        (fun x => !(topoOut cfgs).contains x)).length :=
      List.length_pos_of_mem hdm
    simp only [decide_eq_true_eq]
    exact_mod_cast hpos

/-! ## Claim theorems for the dependency resolver -/

theorem transGen_irrefl_of_empty {r : Key → Key → Prop}
    (h : ∀ a b, ¬ r a b) : ∀ k, ¬ Relation.TransGen r k k := by
  intro k hk
  obtain ⟨d, h1, _⟩ := Relation.TransGen.head'_iff.mp hk
  exact h k d h1

/-- C4 (confirmed): for every duplicate-free team-definition mapping whose
team-to-team member subgraph is acyclic, `_topological_sort` succeeds and
returns a permutation of the team keys (hence each key exactly once, the
key list being duplicate-free) in which every team appears strictly after
each member of its definition that is itself a team key. -/
theorem topological_sort_acyclic_complete (cfgs : List (Key × TeamConfig))
    (hnd : keysNodup cfgs)
    (hacyc : ∀ k, ¬ Relation.TransGen (DependsOn cfgs) k k) :
    ∃ out, topological_sort cfgs = .ok out ∧ out.Perm (teamKeys cfgs) ∧
      ∀ k cfg, (k, cfg) ∈ cfgs → ∀ d ∈ cfg.members, isTeamKey cfgs d = true →
        out.indexOf d < out.indexOf k := by
  refine ⟨topoOut cfgs, topological_sort_ok_of_acyclic cfgs hnd hacyc,
    topoOut_perm_of_complete cfgs hnd (topoOut_complete_of_acyclic cfgs hnd hacyc),
    ?_⟩
  intro k cfg hkc d hdm hdt
  have hk : k ∈ teamKeys cfgs := List.mem_map_of_mem Prod.fst hkc
  have hko : k ∈ topoOut cfgs := topoOut_complete_of_acyclic cfgs hnd hacyc k hk
  have hd : d ∈ tdeps cfgs k := by
    rw [tdeps_eq_of_mem hnd hkc, mem_teamDeps]
    exact ⟨hdm, hdt⟩
  exact (topoOut_ordered cfgs hnd k hko d hd).2

/-- The one-team, one-agent configuration of the spec's end-to-end example. -/
def c4Config : List (Key × TeamConfig) := [("T1", { members := ["A1"] })]

theorem c4Config_no_edges : ∀ a b, ¬ DependsOn c4Config a b := by
  intro a b h
  rw [dependsOn_iff_tdeps, tdeps] at h
  cases hl : c4Config.lookup a with
  | none =>
    rw [hl] at h
    revert h
    simp [teamDeps, default_members]
  | some cfg =>
    rw [hl] at h
    rw [Option.getD_some] at h
    have hmem := lookup_mem hl
    have hcfg : cfg = { members := ["A1"] } := by
      simp [c4Config] at hmem
      exact hmem.2
    subst hcfg
    have hz : teamDeps c4Config (({ members := ["A1"] } : TeamConfig)).members = [] := by
      rfl
    rw [hz] at h
    cases h

theorem topological_sort_acyclic_complete_witness :
    keysNodup c4Config ∧
      (∃ out, topological_sort c4Config = .ok out ∧
        out.Perm (teamKeys c4Config) ∧
        ∀ k cfg, (k, cfg) ∈ c4Config → ∀ d ∈ cfg.members,
          isTeamKey c4Config d = true →
          out.indexOf d < out.indexOf k) :=
  ⟨(by decide : (teamKeys c4Config).Nodup),
    topological_sort_acyclic_complete c4Config
      (by decide : (teamKeys c4Config).Nodup)
      (transGen_irrefl_of_empty c4Config_no_edges)⟩

/-- C5 (confirmed): for every duplicate-free team-definition mapping
containing a team-to-team cycle, `_topological_sort` raises `ValueError`
(modelled `.error`), and the keys named in the error — exactly those whose
in-degree never reached zero — are exactly the team keys lying on a cycle
or transitively depending on one. -/
theorem topological_sort_cycle_error (cfgs : List (Key × TeamConfig))
    (hnd : keysNodup cfgs)
    (hcyc : ∃ c, Relation.TransGen (DependsOn cfgs) c c) :
    ∃ errs, topological_sort cfgs = .error errs ∧
      ∀ k, (k ∈ errs ↔ k ∈ teamKeys cfgs ∧
        ∃ c, Relation.TransGen (DependsOn cfgs) c c ∧
          Relation.ReflTransGen (DependsOn cfgs) k c) := by
  refine ⟨_, topological_sort_error_branch cfgs hnd hcyc, ?_⟩
  intro k
  rw [errKeys_iff cfgs hnd k]
  constructor
  · rintro ⟨hk, hko⟩
    exact ⟨hk, stuck_reaches_cycle cfgs hnd k hk hko⟩
  · rintro ⟨hk, c, hc, hr⟩
    exact ⟨hk, cycle_reach_stuck cfgs hnd k c hc hr⟩

/-- A two-team cycle, one dependent of the cycle, one independent team. -/
def c5Config : List (Key × TeamConfig) :=
  [("A", { members := ["B"] }), ("B", { members := ["A"] }),
   ("C", { members := ["A"] }), ("D", {})]

theorem topological_sort_cycle_error_witness :
    keysNodup c5Config ∧
      (∃ errs, topological_sort c5Config = .error errs ∧
        ∀ k, (k ∈ errs ↔ k ∈ teamKeys c5Config ∧
          ∃ c, Relation.TransGen (DependsOn c5Config) c c ∧
            Relation.ReflTransGen (DependsOn c5Config) k c)) := by
  have hAB : DependsOn c5Config "A" "B" := by
    show dependsOnB c5Config "A" "B" = true
    decide
  have hBA : DependsOn c5Config "B" "A" := by
    show dependsOnB c5Config "B" "A" = true
    decide
  exact ⟨(by decide : (teamKeys c5Config).Nodup),
    topological_sort_cycle_error c5Config
      (by decide : (teamKeys c5Config).Nodup)
      ⟨"A", Relation.TransGen.head hAB (Relation.TransGen.single hBA)⟩⟩

/-! ## C6: pop order of the resolver -/

theorem filter_map_comm {α β : Type} (l : List α) (f : α → β) (p : β → Bool) :
    (l.map f).filter p = (l.filter (fun a => p (f a))).map f := by
  induction l with
  | nil => rfl
  | cons a rest ih =>
    by_cases h : p (f a) = true <;> simp [List.filter_cons, h, ih]

/-- The keys whose definitions have no team-type member, in insertion
order of the definition mapping: the initial queue content. -/
def zeroDepKeys (cfgs : List (Key × TeamConfig)) : List Key :=
  (cfgs.filter (fun p => (teamDeps cfgs p.2.members).isEmpty)).map Prod.fst

theorem int_length_beq_zero (l : List Key) :
    (((l.length : Int)) == 0) = l.isEmpty := by
  cases l with
  | nil => rfl
  | cons a t =>
    simp [List.isEmpty]
    omega

theorem initQueue_eq_zeroDepKeys (cfgs : List (Key × TeamConfig)) :
    initQueue cfgs = zeroDepKeys cfgs := by
  rw [initQueue, initIndeg, filter_map_comm, zeroDepKeys, List.map_map]
  rw [List.filter_congr (fun p _ => int_length_beq_zero (teamDeps cfgs p.2.members))]
  rfl

theorem kahnFuel_out_prefix (adj : Key → List Key) (fuel : Nat) :
    ∀ (queue : List Key) (indeg : List (Key × Int)) (out : List Key),
      queue.length + sumPos indeg ≤ fuel →
      ∃ t, (kahnFuel adj fuel queue indeg out).1 = out ++ queue ++ t := by
  induction fuel with
  | zero =>
    intro queue indeg out hf
    have hq : queue = [] := by
      cases queue with
      | nil => rfl
      | cons a t =>
        exfalso
        have hlc : (a :: t).length = t.length + 1 := rfl
        omega
    subst hq
    exact ⟨[], by simp [kahnFuel]⟩
  | succ fuel ih =>
    intro queue indeg out hf
    cases queue with
    | nil => exact ⟨[], by simp [kahnFuel]⟩
    | cons c rest =>
      rw [kahnFuel]
      obtain ⟨app, happ⟩ := processDeps_queue_prefix (adj c) indeg rest
      have hm := processDeps_measure (adj c) indeg rest
      obtain ⟨t, ht⟩ := ih (processDeps indeg rest (adj c)).2
        (processDeps indeg rest (adj c)).1 (out ++ [c])
        (by
          have hlc : (c :: rest).length = rest.length + 1 := rfl
          omega)
      refine ⟨app ++ t, ?_⟩
      rw [ht, happ]
      simp

/-- Three teams in insertion order `A`, `C`, `D`: `C` depends on `A`, `D`
is independent. -/
def c6Config : List (Key × TeamConfig) :=
  [("A", {}), ("C", { members := ["A"] }), ("D", {})]

/-- C6 (counterexample): the pop order of `_topological_sort` is not the
insertion order of the definition mapping among equal-in-degree
candidates: on `c6Config` the code pops `A, D, C` (FIFO: `D` was queued
initially, `C` only after `A` was processed), while the order described by
the specification — always pop the first-inserted key among the
currently-zero-in-degree candidates — would give `A, C, D`. -/
theorem pop_order_not_insertion_order :
    topological_sort c6Config = .ok ["A", "D", "C"] ∧
    specPopOrder c6Config = ["A", "C", "D"] :=
  ⟨rfl, rfl⟩

/-- C6 (amended): the resolver's pop order is first-in-first-out by the
time a key's in-degree reached zero, not global insertion order; in
particular the keys with zero initial in-degree (no team-type members)
open the output, in insertion order of the definition mapping, and the
whole output is a pure function of the mapping, so rebuilding twice on
identical input yields an identical order. -/
theorem initial_zero_in_degree_keys_lead (cfgs : List (Key × TeamConfig)) :
    ∃ rest, topoOut cfgs = zeroDepKeys cfgs ++ rest := by
  rw [← initQueue_eq_zeroDepKeys, topoOut, kahnRun]
  obtain ⟨t, ht⟩ := kahnFuel_out_prefix (adjList cfgs)
    ((initQueue cfgs).length + sumPos (initIndeg cfgs))
    (initQueue cfgs) (initIndeg cfgs) [] (le_refl _)
  exact ⟨t, by simpa using ht⟩

/-! ## Characterization of `_create_team_instance` and the build loop -/

theorem bool_eq_false_of_not_true {b : Bool} (h : ¬ b = true) : b = false := by
  cases b
  · rfl
  · exact absurd rfl h

theorem lookup_append_single_ne {α : Type} (l : List (Key × α)) (j k : Key)
    (v : α) (h : k ≠ j) : (l ++ [(j, v)]).lookup k = l.lookup k := by
  induction l with
  | nil =>
    have hb : (k == j) = false := by simp [h]
    simp [List.lookup, hb]
  | cons e rest ih =>
    obtain ⟨m, w⟩ := e
    by_cases hk : k = m
    · subst hk
      simp [List.lookup]
    · have hb : (k == m) = false := by simp [hk]
      simp only [List.cons_append, List.lookup, hb]
      exact ih

theorem lookup_append_single_self {α : Type} (l : List (Key × α)) (j : Key)
    (v : α) (h : l.lookup j = none) : (l ++ [(j, v)]).lookup j = some v := by
  induction l with
  | nil => simp [List.lookup]
  | cons e rest ih =>
    obtain ⟨m, w⟩ := e
    by_cases hj : j = m
    · subst hj
      simp only [List.lookup, beq_self_eq_true] at h
      exact Option.noConfusion h
    · have hb : (j == m) = false := by simp [hj]
      simp only [List.lookup, hb] at h
      simp only [List.cons_append, List.lookup, hb]
      exact ih h

theorem resolve_members_none_iff (fac : Factory)
    (agents : List (Key × AgentConfig)) (tc : List (Key × TeamConfig))
    (ts : List (Key × Participant)) (ms : List Key) :
    resolve_members fac agents tc ts ms = none ↔
      ∃ m ∈ ms, isTeamKey tc m = true ∧ ts.lookup m = none := by
  induction ms with
  | nil => simp [resolve_members]
  | cons m rest ih =>
    rw [resolve_members]
    by_cases htk : isTeamKey tc m = true
    · rw [if_pos htk]
      cases hts : ts.lookup m with
      | none =>
        constructor
        · intro _
          exact ⟨m, List.mem_cons_self m rest, htk, hts⟩
        · intro _
          rfl
      | some t =>
        rw [Option.map_eq_none', ih]
        constructor
        · rintro ⟨x, hx, hpx⟩
          exact ⟨x, List.mem_cons_of_mem m hx, hpx⟩
        · rintro ⟨x, hx, hpx⟩
          rcases List.mem_cons.mp hx with rfl | hxr
          · rw [hts] at hpx
            exact Option.noConfusion hpx.2
          · exact ⟨x, hxr, hpx⟩
    · rw [if_neg htk]
      cases hag : agents.lookup m with
      | some ac =>
        rw [Option.map_eq_none', ih]
        constructor
        · rintro ⟨x, hx, hpx⟩
          exact ⟨x, List.mem_cons_of_mem m hx, hpx⟩
        · rintro ⟨x, hx, hpx⟩
          rcases List.mem_cons.mp hx with rfl | hxr
          · exact absurd hpx.1 htk
          · exact ⟨x, hxr, hpx⟩
      | none =>
        rw [ih]
        constructor
        · rintro ⟨x, hx, hpx⟩
          exact ⟨x, List.mem_cons_of_mem m hx, hpx⟩
        · rintro ⟨x, hx, hpx⟩
          rcases List.mem_cons.mp hx with rfl | hxr
          · exact absurd hpx.1 htk
          · exact ⟨x, hxr, hpx⟩

theorem resolve_members_some_nil_iff (fac : Factory)
    (agents : List (Key × AgentConfig)) (tc : List (Key × TeamConfig))
    (ts : List (Key × Participant)) (ms : List Key) :
    resolve_members fac agents tc ts ms = some [] ↔
      ∀ m ∈ ms, isTeamKey tc m = false ∧ agents.lookup m = none := by
  induction ms with
  | nil => simp [resolve_members]
  | cons m rest ih =>
    rw [resolve_members]
    by_cases htk : isTeamKey tc m = true
    · rw [if_pos htk]
      cases hts : ts.lookup m with
      | none =>
        constructor
        · intro h
          exact Option.noConfusion h
        · intro h
          have h1 := (h m (List.mem_cons_self m rest)).1
          rw [htk] at h1
          exact Bool.noConfusion h1
      | some t =>
        constructor
        · intro h
          exfalso
          cases hr : resolve_members fac agents tc ts rest with
          | none =>
            rw [hr] at h
            exact Option.noConfusion h
          | some l =>
            rw [hr] at h
            injection h with h2
            exact List.noConfusion h2
        · intro h
          have h1 := (h m (List.mem_cons_self m rest)).1
          rw [htk] at h1
          exact Bool.noConfusion h1
    · rw [if_neg htk]
      cases hag : agents.lookup m with
      | some ac =>
        constructor
        · intro h
          exfalso
          cases hr : resolve_members fac agents tc ts rest with
          | none =>
            rw [hr] at h
            exact Option.noConfusion h
          | some l =>
            rw [hr] at h
            injection h with h2
            exact List.noConfusion h2
        · intro h
          have h2 := (h m (List.mem_cons_self m rest)).2
          rw [hag] at h2
          exact Option.noConfusion h2
      | none =>
        rw [ih]
        constructor
        · intro h x hx
          rcases List.mem_cons.mp hx with rfl | hxr
          · exact ⟨bool_eq_false_of_not_true htk, hag⟩
          · exact h x hxr
        · intro h x hx
          exact h x (List.mem_cons_of_mem m hx)

theorem create_team_instance_none_iff (fac : Factory)
    (agents : List (Key × AgentConfig)) (tc : List (Key × TeamConfig))
    (ts : List (Key × Participant)) (k : Key) (cfg : TeamConfig)
    (hk : tc.lookup k = some cfg) :
    create_team_instance fac agents tc ts k = none ↔
      ((∃ m ∈ cfg.members, isTeamKey tc m = true ∧ ts.lookup m = none) ∨
       (cfg.members ≠ [] ∧
        ∀ m ∈ cfg.members, isTeamKey tc m = false ∧ agents.lookup m = none)) := by
  rw [create_team_instance, hk, Option.getD_some]
  cases hr : resolve_members fac agents tc ts cfg.members with
  | none =>
    simp only [true_iff]
    exact Or.inl ((resolve_members_none_iff fac agents tc ts cfg.members).mp hr)
  | some l =>
    dsimp only
    have hnn : ¬ (∃ m ∈ cfg.members, isTeamKey tc m = true ∧ ts.lookup m = none) := by
      rw [← resolve_members_none_iff fac agents tc ts cfg.members]
      intro hfalse
      rw [hr] at hfalse
      exact Option.noConfusion hfalse
    by_cases hle : l = []
    · subst hle
      have hall := (resolve_members_some_nil_iff fac agents tc ts cfg.members).mp hr
      by_cases hme : cfg.members = []
      · have hcond : (([] : List Participant).isEmpty && !cfg.members.isEmpty) = false := by
          rw [hme]
          rfl
        rw [hcond]
        constructor
        · intro h
          exact absurd h (by simp)
        · rintro (hc | ⟨hc, _⟩)
          · exact absurd hc hnn
          · exact absurd hme hc
      · have hmne : cfg.members.isEmpty = false := by
          cases hcm : cfg.members with
          | nil => exact absurd hcm hme
          | cons a t => rfl
        have hcond : (([] : List Participant).isEmpty && !cfg.members.isEmpty) = true := by
          rw [hmne]
          rfl
        rw [hcond]
        constructor
        · intro _
          exact Or.inr ⟨hme, hall⟩
        · intro _
          rfl
    · have hlne : l.isEmpty = false := by
        cases l with
        | nil => exact absurd rfl hle
        | cons a t => rfl
      have hcond : (l.isEmpty && !cfg.members.isEmpty) = false := by
        rw [hlne]
        rfl
      rw [hcond]
      constructor
      · intro h
        exact absurd h (by simp)
      · rintro (hc | ⟨hme, hall⟩)
        · exact absurd hc hnn
        · exfalso
          have h0 := (resolve_members_some_nil_iff fac agents tc ts cfg.members).mpr hall
          rw [hr] at h0
          injection h0 with h1
          exact hle h1

theorem build_teams_lookup_stable (fac : Factory)
    (agents : List (Key × AgentConfig)) (tc : List (Key × TeamConfig)) :
    ∀ (suffix : List Key) (ts : List (Key × Participant)) (k : Key),
      k ∉ suffix →
      (build_teams fac agents tc suffix ts).lookup k = ts.lookup k := by
  intro suffix
  induction suffix with
  | nil =>
    intro ts k _
    rfl
  | cons j tail ih =>
    intro ts k hk
    have hkj : k ≠ j := fun h => hk (h ▸ List.mem_cons_self j tail)
    have hkt : k ∉ tail := fun h => hk (List.mem_cons_of_mem j h)
    rw [build_teams]
    cases hc : create_team_instance fac agents tc ts j with
    | some t =>
      dsimp only
      rw [ih (ts ++ [(j, t)]) k hkt, lookup_append_single_ne _ _ _ _ hkj]
    | none =>
      dsimp only
      exact ih ts k hkt

theorem build_teams_char (fac : Factory) (agents : List (Key × AgentConfig))
    (tc : List (Key × TeamConfig)) (hnd : keysNodup tc) :
    ∀ (suffix : List Key) (ts : List (Key × Participant)),
      suffix.Nodup →
      (∀ k ∈ suffix, k ∈ teamKeys tc) →
      (∀ k ∈ suffix, ts.lookup k = none) →
      List.Pairwise (fun a b => b ∉ tdeps tc a) suffix →
      (∀ k ∈ suffix, k ∉ tdeps tc k) →
      ∀ k ∈ suffix, ∀ cfg, tc.lookup k = some cfg →
        (((build_teams fac agents tc suffix ts).lookup k).isSome = true ↔
          ((∀ m ∈ cfg.members, isTeamKey tc m = true →
              ((build_teams fac agents tc suffix ts).lookup m).isSome = true) ∧
           (cfg.members = [] ∨ ∃ m ∈ cfg.members, isTeamKey tc m = true ∨
              (agents.lookup m).isSome = true))) := by
  intro suffix
  induction suffix with
  | nil =>
    intro ts _ _ _ _ _ k hk
    cases hk
  | cons j tail ih =>
    intro ts hnodup hkeys hts hpw hself k hk cfg hcfg
    rw [List.nodup_cons] at hnodup
    rw [List.pairwise_cons] at hpw
    have hdj_not : ∀ m ∈ tdeps tc j, m ∉ j :: tail := by
      intro m hm hmem
      rcases List.mem_cons.mp hmem with rfl | hmt
      · exact hself m (List.mem_cons_self m tail) hm
      · exact hpw.1 m hmt hm
    rw [build_teams]
    cases hcr : create_team_instance fac agents tc ts j with
    | some t =>
      dsimp only
      have hkey : ∀ m ∈ tdeps tc j,
          (build_teams fac agents tc tail (ts ++ [(j, t)])).lookup m =
            ts.lookup m := by
        intro m hm
        have hmt : m ∉ tail := fun hh => hdj_not m hm (List.mem_cons_of_mem j hh)
        have hmj : m ≠ j := fun hh => hdj_not m hm (hh ▸ List.mem_cons_self j tail)
        rw [build_teams_lookup_stable fac agents tc tail _ m hmt,
          lookup_append_single_ne _ _ _ _ hmj]
      have hts' : ∀ x ∈ tail, (ts ++ [(j, t)]).lookup x = none := by
        intro x hx
        have hxj : x ≠ j := fun hh => hnodup.1 (hh ▸ hx)
        rw [lookup_append_single_ne _ _ _ _ hxj]
        exact hts x (List.mem_cons_of_mem j hx)
      rcases List.mem_cons.mp hk with rfl | hkt
      · -- k = j, successfully built
        have hjcfg : tc.lookup k = some cfg := hcfg
        have hjt : k ∉ tail := hnodup.1
        have hlk : (build_teams fac agents tc tail (ts ++ [(k, t)])).lookup k =
            some t := by
          rw [build_teams_lookup_stable fac agents tc tail _ k hjt]
          exact lookup_append_single_self ts k t (hts k (List.mem_cons_self k tail))
        rw [hlk]
        simp only [Option.isSome_some, true_iff]
        have hnone := (create_team_instance_none_iff fac agents tc ts k cfg hjcfg).not.mp
          (by rw [hcr]; exact fun hh => Option.noConfusion hh)
        push_neg at hnone
        obtain ⟨hnA, hnB⟩ := hnone
        constructor
        · intro m hm htk
          have hmd : m ∈ tdeps tc k := by
            rw [tdeps_eq_of_mem hnd (lookup_mem hjcfg), mem_teamDeps]
            exact ⟨hm, htk⟩
          rw [hkey m hmd]
          have := hnA m hm htk
          rw [Option.isSome_iff_ne_none]
          exact this
        · by_cases hme : cfg.members = []
          · exact Or.inl hme
          · obtain ⟨m, hm, hmp⟩ := hnB hme
            refine Or.inr ⟨m, hm, ?_⟩
            by_cases htk : isTeamKey tc m = true
            · exact Or.inl htk
            · refine Or.inr ?_
              rw [Option.isSome_iff_ne_none]
              exact hmp (bool_eq_false_of_not_true htk)
      · -- k in the tail: inductive hypothesis on the extended registry
        exact ih (ts ++ [(j, t)]) hnodup.2 (fun x hx => hkeys x (List.mem_cons_of_mem j hx))
          hts' hpw.2 (fun x hx => hself x (List.mem_cons_of_mem j hx)) k hkt cfg hcfg
    | none =>
      dsimp only
      have hkey : ∀ m ∈ tdeps tc j,
          (build_teams fac agents tc tail ts).lookup m = ts.lookup m := by
        intro m hm
        have hmt : m ∉ tail := fun hh => hdj_not m hm (List.mem_cons_of_mem j hh)
        exact build_teams_lookup_stable fac agents tc tail ts m hmt
      rcases List.mem_cons.mp hk with rfl | hkt
      · -- k = j, failed to build
        have hjcfg : tc.lookup k = some cfg := hcfg
        have hjt : k ∉ tail := hnodup.1
        have hlk : (build_teams fac agents tc tail ts).lookup k = none := by
          rw [build_teams_lookup_stable fac agents tc tail ts k hjt]
          exact hts k (List.mem_cons_self k tail)
        rw [hlk]
        simp only [Option.isSome_none, Bool.false_eq_true, false_iff]
        rintro ⟨hA, hB⟩
        rcases (create_team_instance_none_iff fac agents tc ts k cfg hjcfg).mp hcr with
          ⟨m, hm, htk, hmnone⟩ | ⟨hme, hall⟩
        · have hmd : m ∈ tdeps tc k := by
            rw [tdeps_eq_of_mem hnd (lookup_mem hjcfg), mem_teamDeps]
            exact ⟨hm, htk⟩
          have := hA m hm htk
          rw [hkey m hmd, hmnone] at this
          exact Bool.noConfusion this
        · rcases hB with hme2 | ⟨m, hm, hmp⟩
          · exact hme hme2
          · obtain ⟨htk, hag⟩ := hall m hm
            rcases hmp with htk2 | hag2
            · rw [htk] at htk2
              exact Bool.noConfusion htk2
            · rw [hag] at hag2
              exact Bool.noConfusion hag2
      · exact ih ts hnodup.2 (fun x hx => hkeys x (List.mem_cons_of_mem j hx))
          (fun x hx => hts x (List.mem_cons_of_mem j hx)) hpw.2
          (fun x hx => hself x (List.mem_cons_of_mem j hx)) k hkt cfg hcfg

theorem topological_sort_ok_inv (cfgs : List (Key × TeamConfig)) (sorted : List Key)
    (hok : topological_sort cfgs = .ok sorted) :
    sorted = topoOut cfgs ∧ (topoOut cfgs).length = cfgs.length := by
  rw [topological_sort] at hok
  by_cases h : (kahnRun cfgs).1.length = cfgs.length
  · rw [if_pos h] at hok
    injection hok with h1
    exact ⟨h1.symm, h⟩
  · rw [if_neg h] at hok
    exact Except.noConfusion hok

theorem topoOut_complete_of_length (cfgs : List (Key × TeamConfig))
    (hnd : keysNodup cfgs) (hlen : (topoOut cfgs).length = cfgs.length) :
    ∀ k ∈ teamKeys cfgs, k ∈ topoOut cfgs := by
  have hsp := List.subperm_of_subset (topoOut_nodup cfgs hnd)
    (fun a hx => topoOut_sub cfgs hnd a hx)
  have hperm := hsp.perm_of_length_le
    (by simp only [teamKeys, List.length_map]; omega)
  intro k hk
  exact hperm.mem_iff.mpr hk

theorem topoOut_pairwise (cfgs : List (Key × TeamConfig)) (hnd : keysNodup cfgs) :
    List.Pairwise (fun a b => b ∉ tdeps cfgs a) (topoOut cfgs) := by
  rw [List.pairwise_iff_get]
  intro i j hij hmem
  have hgi : (topoOut cfgs).get i ∈ topoOut cfgs := List.get_mem (topoOut cfgs) i.1 i.2
  obtain ⟨_, hlt⟩ := topoOut_ordered cfgs hnd _ hgi _ hmem
  rw [List.get_indexOf (topoOut_nodup cfgs hnd) i,
    List.get_indexOf (topoOut_nodup cfgs hnd) j] at hlt
  have hij' : (i : Nat) < (j : Nat) := hij
  omega

theorem topoOut_no_self (cfgs : List (Key × TeamConfig)) (hnd : keysNodup cfgs) :
    ∀ k ∈ topoOut cfgs, k ∉ tdeps cfgs k := by
  intro k hk hself
  obtain ⟨_, hlt⟩ := topoOut_ordered cfgs hnd k hk k hself
  omega

/-- C7 (confirmed): when the build processes a topologically sorted order,
the final registry satisfies, for every team definition: the team was
built exactly when every team-key member of its definition was itself
built and the definition is not a nonempty list of members all unknown.
Hence a team whose team-key member is absent from the registry (for
example because that member's own build failed) fails itself, failures
propagate forward to every transitive dependent and never backward, and
every independently buildable key is built; the rebuild still reports
success. -/
theorem reinitialize_teams_registry_char (s : AppState) (fac : Factory)
    (hf : s.factory = some fac) (hnd : keysNodup s.teams_config)
    (sorted : List Key)
    (hok : topological_sort s.teams_config = .ok sorted) :
    (reinitialize_teams s).2 = true ∧
    ∀ k cfg, (k, cfg) ∈ s.teams_config →
      ((((reinitialize_teams s).1.teams.lookup k).isSome = true) ↔
        ((∀ m ∈ cfg.members, isTeamKey s.teams_config m = true →
            (((reinitialize_teams s).1.teams.lookup m).isSome = true)) ∧
         (cfg.members = [] ∨ ∃ m ∈ cfg.members,
            isTeamKey s.teams_config m = true ∨
              (s.agents.lookup m).isSome = true))) := by
  obtain ⟨hsort, hlen⟩ := topological_sort_ok_inv s.teams_config sorted hok
  subst hsort
  by_cases he : s.teams_config.isEmpty = true
  · have hnil : s.teams_config = [] := by
      cases hc : s.teams_config with
      | nil => rfl
      | cons a t =>
        rw [hc] at he
        exact Bool.noConfusion he
    have hre : reinitialize_teams s = ({ s with teams := [] }, true) := by
      rw [reinitialize_teams, hf]
      dsimp only
      rw [if_pos he]
    rw [hre]
    refine ⟨rfl, ?_⟩
    intro k cfg hkc
    rw [hnil] at hkc
    cases hkc
  · have hre : reinitialize_teams s =
        ({ s with
            teams := build_teams fac s.agents s.teams_config (topoOut s.teams_config) [] },
          true) := by
      rw [reinitialize_teams, hf]
      dsimp only
      rw [if_neg he, hok]
    rw [hre]
    refine ⟨rfl, ?_⟩
    intro k cfg hkc
    dsimp only
    have hcomp := topoOut_complete_of_length s.teams_config hnd hlen
    have hk : k ∈ teamKeys s.teams_config := List.mem_map_of_mem Prod.fst hkc
    have hks : k ∈ topoOut s.teams_config := hcomp k hk
    exact build_teams_char fac s.agents s.teams_config hnd (topoOut s.teams_config)
      [] (topoOut_nodup _ hnd) (fun x hx => topoOut_sub _ hnd x hx)
      (fun x _ => rfl) (topoOut_pairwise _ hnd) (topoOut_no_self _ hnd)
      k hks cfg (mem_lookup hnd hkc)

/-- A chain with one agent-backed team, one team with only an unknown
member, and one team depending on the failed one. -/
def c7State : AppState :=
  { factory := some ⟨[]⟩
    agents := [("A1", { role := "writer", description := "d" })]
    teams_config :=
      [("T1", { members := ["A1"] }),
       ("T2", { members := ["ghost"] }),
       ("T3", { members := ["T2"] })]
    teams := [] }

theorem reinitialize_teams_registry_char_witness :
    c7State.factory = some ⟨[]⟩ ∧
    (teamKeys c7State.teams_config).Nodup ∧
    topological_sort c7State.teams_config = .ok ["T1", "T2", "T3"] ∧
    ((reinitialize_teams c7State).2 = true ∧
     ∀ k cfg, (k, cfg) ∈ c7State.teams_config →
       ((((reinitialize_teams c7State).1.teams.lookup k).isSome = true) ↔
         ((∀ m ∈ cfg.members, isTeamKey c7State.teams_config m = true →
             (((reinitialize_teams c7State).1.teams.lookup m).isSome = true)) ∧
          (cfg.members = [] ∨ ∃ m ∈ cfg.members,
             isTeamKey c7State.teams_config m = true ∨
               (c7State.agents.lookup m).isSome = true)))) :=
  ⟨rfl, by decide, rfl,
    reinitialize_teams_registry_char c7State ⟨[]⟩ rfl
      (by decide : (teamKeys c7State.teams_config).Nodup) _ rfl⟩

/-! ## C1: cycle handling of the full rebuild -/

/-- A nonempty previously active registry together with a self-referencing
(cyclic) team definition. -/
def cyclicState : AppState :=
  { factory := some ⟨[]⟩
    agents := []
    teams_config := [("A", { members := ["A"] })]
    teams := [("X", Participant.team none [] none none none)] }

/-- C1 (counterexample): on a cyclic configuration, `reinitialize_teams`
does report failure, but the previously active registry (here containing
the team `X`) is *not* left in place — `self.teams = {}` has already
discarded it before the cycle is detected, so the registry ends up
empty. -/
theorem reinit_cycle_clears_registry :
    cyclicState.teams.isEmpty = false ∧
    (reinitialize_teams cyclicState).2 = false ∧
    ((reinitialize_teams cyclicState).1.teams).isEmpty = true :=
  ⟨rfl, rfl, rfl⟩

/-- C1 (amended): for every state with a working factory whose
team-definition mapping makes `_topological_sort` raise (a cycle),
`reinitialize_teams` reports failure (returns `False`) but leaves the
registry *empty*: the previous registry was discarded by `self.teams = {}`
before dependency resolution ran, so it is not restored. -/
theorem reinitialize_teams_cycle_empties_registry (s : AppState) (fac : Factory)
    (hf : s.factory = some fac) (e : List Key)
    (hcyc : topological_sort s.teams_config = .error e) :
    reinitialize_teams s = ({ s with teams := [] }, false) := by
  rw [reinitialize_teams, hf]
  dsimp only
  by_cases he : s.teams_config.isEmpty = true
  · exfalso
    have hnil : s.teams_config = [] := by
      cases hc : s.teams_config with
      | nil => rfl
      | cons a t =>
        rw [hc] at he
        exact Bool.noConfusion he
    rw [hnil] at hcyc
    have hok : topological_sort ([] : List (Key × TeamConfig)) = .ok [] := rfl
    rw [hok] at hcyc
    exact Except.noConfusion hcyc
  · rw [if_neg he, hcyc]

theorem reinitialize_teams_cycle_empties_registry_witness :
    cyclicState.factory = some ⟨[]⟩ ∧
    topological_sort cyclicState.teams_config = .error ["A"] ∧
    reinitialize_teams cyclicState = ({ cyclicState with teams := [] }, false) :=
  ⟨rfl, rfl,
    reinitialize_teams_cycle_empties_registry cyclicState ⟨[]⟩ rfl ["A"] rfl⟩

/-! ## C2: missing members -/

/-- A team whose member `ghost` is defined nowhere while its member `A1`
is a defined agent. -/
def partialState : AppState :=
  { factory := some ⟨[]⟩
    agents := [("A1", { role := "writer", description := "d" })]
    teams_config := [("T", { members := ["ghost", "A1"] })]
    teams := [] }

/-- C2 (counterexample): `ghost` matches neither a team nor an agent
definition, yet after the rebuild an entry for `T` *does* appear in the
registry: the missing member is only logged and skipped, and since the
other member `A1` resolves, a partial team built from the resolvable
subset is inserted. -/
theorem missing_member_partial_team_built :
    (partialState.teams_config.lookup "ghost") = none ∧
    (partialState.agents.lookup "ghost") = none ∧
    ((reinitialize_teams partialState).1.teams.lookup "T").isSome = true :=
  ⟨rfl, rfl, rfl⟩

/-- C2 (amended): a team fails for missing members only when *no* declared
member resolves: if its member list is nonempty and every member key
matches neither a team nor an agent definition, `_create_team_instance`
returns `None` whatever the partial registry, and the rebuilt registry has
no entry for that team's key.  (When at least one member resolves, a
partial team containing just the resolvable members is inserted — see the
counterexample — and teams depending on a key that did fail to build fail
in turn, see C7.) -/
theorem all_members_unknown_team_not_built (s : AppState) (fac : Factory)
    (hf : s.factory = some fac) (k : Key) (cfg : TeamConfig)
    (hk : s.teams_config.lookup k = some cfg) (hne : cfg.members ≠ [])
    (hunknown : ∀ m ∈ cfg.members,
      s.teams_config.lookup m = none ∧ s.agents.lookup m = none) :
    (∀ ts, create_team_instance fac s.agents s.teams_config ts k = none) ∧
    (reinitialize_teams s).1.teams.lookup k = none := by
  have hcreate : ∀ ts, create_team_instance fac s.agents s.teams_config ts k = none := by
    intro ts
    rw [create_team_instance_none_iff fac s.agents s.teams_config ts k cfg hk]
    refine Or.inr ⟨hne, ?_⟩
    intro m hm
    obtain ⟨h1, h2⟩ := hunknown m hm
    refine ⟨?_, h2⟩
    rw [isTeamKey, h1]
    rfl
  refine ⟨hcreate, ?_⟩
  rw [reinitialize_teams, hf]
  dsimp only
  by_cases he : s.teams_config.isEmpty = true
  · rw [if_pos he]
    rfl
  · rw [if_neg he]
    cases hsort : topological_sort s.teams_config with
    | error e => rfl
    | ok sorted =>
      dsimp only
      have hnever : ∀ (l : List Key) (ts : List (Key × Participant)),
          ts.lookup k = none →
          (build_teams fac s.agents s.teams_config l ts).lookup k = none := by
        intro l
        induction l with
        | nil =>
          intro ts h
          exact h
        | cons j tail ih =>
          intro ts h
          rw [build_teams]
          cases hc : create_team_instance fac s.agents s.teams_config ts j with
          | some t =>
            dsimp only
            apply ih
            by_cases hkj : k = j
            · subst hkj
              rw [hcreate ts] at hc
              exact Option.noConfusion hc
            · rw [lookup_append_single_ne _ _ _ _ hkj]
              exact h
          | none =>
            dsimp only
            exact ih ts h
      exact hnever sorted [] rfl

/-- A team both of whose members are unknown, next to an independent
empty team. -/
def allUnknownState : AppState :=
  { factory := some ⟨[]⟩
    agents := []
    teams_config := [("T", { members := ["g1", "g2"] }), ("U", {})]
    teams := [] }

theorem all_members_unknown_team_not_built_witness :
    allUnknownState.factory = some ⟨[]⟩ ∧
    allUnknownState.teams_config.lookup "T" =
      some { members := ["g1", "g2"] } ∧
    (["g1", "g2"] : List Key) ≠ [] ∧
    (∀ m ∈ (["g1", "g2"] : List Key),
      allUnknownState.teams_config.lookup m = none ∧
        allUnknownState.agents.lookup m = none) ∧
    ((∀ ts, create_team_instance ⟨[]⟩ allUnknownState.agents
        allUnknownState.teams_config ts "T" = none) ∧
     (reinitialize_teams allUnknownState).1.teams.lookup "T" = none) :=
  ⟨rfl, rfl, by decide, by decide,
    all_members_unknown_team_not_built allUnknownState ⟨[]⟩ rfl "T"
      { members := ["g1", "g2"] } rfl (by decide) (by decide)⟩
